import Mathlib

/-
  Verification of the linenoise line-editing library (linenoise.c, 2.0 API).

  Bytes are modelled as natural numbers (values < 256 in every reachable
  state); C byte buffers become lists of naturals.  The edit buffer of a
  linenoise_state_t is modelled as the list of its live bytes buf[0..len),
  so the C field len equals buf.length and the NUL sentinel at buf[len] is
  implicit.  size_t arithmetic is modelled on Nat; every subtraction
  performed by the modelled code paths is guarded by the surrounding
  conditions (the theorems' hypotheses establish the bounds), so no 2^64
  wrap-around can occur in the modelled executions.

  The UTF-8 module (src/utf8.c) is part of this repository but is not
  present under src/ (only internal/utf8.h declarations and callers are),
  so its functions are modelled from the specification, section 4.1; each
  such definition carries a doc comment saying so.
-/

set_option maxRecDepth 4000

namespace Linenoise

/-! ## UTF-8 / grapheme model (modelled from the spec, §3 and §4.1) -/

/-- Modelled from the spec: `byte_len_of_leader(b)` of the missing
src/utf8.c.  Expected UTF-8 sequence length given a leading byte (1..4);
on an invalid leader it returns 1 (Latin-1 fallback). -/
def utf8_byte_len (b : Nat) : Nat :=
  if b < 0x80 then 1
  else if b < 0xC0 then 1
  else if b < 0xE0 then 2
  else if b < 0xF0 then 3
  else if b < 0xF8 then 4
  else 1

/-- A UTF-8 continuation byte (10xxxxxx). -/
def utf8_is_cont (b : Nat) : Bool := 0x80 ≤ b && b < 0xC0

/-- Modelled from the spec: `decode_at(bytes, offset)` of the missing
src/utf8.c, returning (codepoint, length_consumed).  `fin` bounds the
readable range; a sequence that is malformed or clipped by the edge
decodes as the single leading byte with length 1 (spec §4.1 edge
policies). -/
def utf8_decode (buf : List Nat) (off fin : Nat) : Nat × Nat :=
  let b0 := buf.getD off 0
  let b1 := buf.getD (off+1) 0
  let b2 := buf.getD (off+2) 0
  let b3 := buf.getD (off+3) 0
  let n := utf8_byte_len b0
  if n = 2 ∧ off + 2 ≤ fin ∧ utf8_is_cont b1 then
    (b0 % 0x20 * 0x40 + b1 % 0x40, 2)
  else if n = 3 ∧ off + 3 ≤ fin ∧ utf8_is_cont b1 ∧ utf8_is_cont b2 then
    (b0 % 0x10 * 0x1000 + b1 % 0x40 * 0x40 + b2 % 0x40, 3)
  else if n = 4 ∧ off + 4 ≤ fin ∧ utf8_is_cont b1 ∧ utf8_is_cont b2 ∧ utf8_is_cont b3 then
    (b0 % 0x08 * 0x40000 + b1 % 0x40 * 0x1000 + b2 % 0x40 * 0x40 + b3 % 0x40, 4)
  else (b0, 1)

/-- Modelled from the spec: combining-mark classification of the missing
src/utf8.c (spec §3, width-0 combining ranges). -/
def utf8_is_combining_mark (cp : Nat) : Bool :=
  (0x0300 ≤ cp && cp ≤ 0x036F) || (0x1AB0 ≤ cp && cp ≤ 0x1AFF) ||
  (0x1DC0 ≤ cp && cp ≤ 0x1DFF) || (0x20D0 ≤ cp && cp ≤ 0x20FF) ||
  (0xFE20 ≤ cp && cp ≤ 0xFE2F)

/-- Modelled from the spec: variation selectors U+FE0E, U+FE0F. -/
def utf8_is_variation_selector (cp : Nat) : Bool := cp == 0xFE0E || cp == 0xFE0F

/-- Modelled from the spec: skin-tone modifiers U+1F3FB..U+1F3FF. -/
def utf8_is_skin_tone_modifier (cp : Nat) : Bool := 0x1F3FB ≤ cp && cp ≤ 0x1F3FF

/-- Modelled from the spec: the Zero-Width Joiner U+200D. -/
def utf8_is_zwj (cp : Nat) : Bool := cp == 0x200D

/-- Modelled from the spec: regional indicators U+1F1E6..U+1F1FF. -/
def utf8_is_regional_indicator (cp : Nat) : Bool := 0x1F1E6 ≤ cp && cp ≤ 0x1F1FF

/-- Modelled from the spec: `is_grapheme_extender(cp)` of the missing
src/utf8.c: combining marks, variation selectors, skin-tone modifiers and
the ZWJ (the codepoints that continue a grapheme cluster, spec §3). -/
def utf8_is_grapheme_extend (cp : Nat) : Bool :=
  utf8_is_combining_mark cp || utf8_is_variation_selector cp ||
  utf8_is_skin_tone_modifier cp || utf8_is_zwj cp

/-- Modelled from the spec: the width-2 ranges of §3 (CJK, Hangul,
fullwidth forms, regional indicators, emoji blocks). -/
def utf8_is_wide (cp : Nat) : Bool :=
  (0x1100 ≤ cp && cp ≤ 0x115F) || (0x2E80 ≤ cp && cp ≤ 0x303E) ||
  (0x3041 ≤ cp && cp ≤ 0x33FF) || (0x3400 ≤ cp && cp ≤ 0x4DBF) ||
  (0x4E00 ≤ cp && cp ≤ 0x9FFF) || (0xA000 ≤ cp && cp ≤ 0xA4CF) ||
  (0xAC00 ≤ cp && cp ≤ 0xD7A3) || (0xF900 ≤ cp && cp ≤ 0xFAFF) ||
  (0xFE30 ≤ cp && cp ≤ 0xFE4F) || (0xFF00 ≤ cp && cp ≤ 0xFF60) ||
  (0xFFE0 ≤ cp && cp ≤ 0xFFE6) ||
  (0x1F1E6 ≤ cp && cp ≤ 0x1F1FF) || (0x1F300 ≤ cp && cp ≤ 0x1F9FF) ||
  (0x1FA00 ≤ cp && cp ≤ 0x1FAFF) ||
  (0x20000 ≤ cp && cp ≤ 0x2FFFD) || (0x30000 ≤ cp && cp ≤ 0x3FFFD)

/-- Modelled from the spec: `codepoint_width(cp)` of the missing
src/utf8.c: 0 for NUL and grapheme extenders (the §3 width-0 list), 2 for
the wide ranges, 1 otherwise. -/
def utf8_codepoint_width (cp : Nat) : Nat :=
  if cp = 0 then 0
  else if utf8_is_grapheme_extend cp then 0
  else if utf8_is_wide cp then 2
  else 1

/-- Modelled from the spec: the extender loop of `next_grapheme_len`
(§4.1): repeatedly consume grapheme extenders; after a ZWJ consume one
more base codepoint and continue.  Returns the end offset of the cluster;
`fuel` bounds the recursion (one codepoint consumed per step). -/
def nextGraphemeAux (buf : List Nat) (fin : Nat) : Nat → Bool → Nat → Nat
  | off, _, 0 => off
  | off, prevZWJ, fuel+1 =>
    if off < fin then
      let d := utf8_decode buf off fin
      if utf8_is_grapheme_extend d.1 then
        nextGraphemeAux buf fin (off + d.2) (utf8_is_zwj d.1) fuel
      else if prevZWJ then
        nextGraphemeAux buf fin (off + d.2) false fuel
      else off
    else off

/-- Modelled from the spec: `next_grapheme_len(bytes, offset, end)` of the
missing src/utf8.c: byte length of the grapheme cluster starting at
`offset`, clipped at `fin`. -/
def utf8_next_grapheme_len (buf : List Nat) (off fin : Nat) : Nat :=
  if off < fin then
    let d := utf8_decode buf off fin
    nextGraphemeAux buf fin (off + d.2) (utf8_is_zwj d.1) (fin - off) - off
  else 0

/-- Start offset of the codepoint preceding offset `p`: back up over UTF-8
continuation bytes (stops at 0 if all preceding bytes are continuations). -/
def prev_cp_start (buf : List Nat) : Nat → Nat
  | 0 => 0
  | p+1 => if utf8_is_cont (buf.getD p 0) then prev_cp_start buf p else p

/-- Modelled from the spec: the backward walk of `prev_grapheme_len`
(§4.1): starting from the start offset of the last codepoint, keep backing
up one codepoint while the current codepoint is a grapheme extender or the
codepoint immediately before it is a ZWJ.  Returns the cluster start. -/
def prevClusterAux (buf : List Nat) (fin : Nat) : Nat → Nat → Nat
  | start, 0 => start
  | start, fuel+1 =>
    if start = 0 then 0
    else
      let ps := prev_cp_start buf start
      let cur := (utf8_decode buf start fin).1
      let prev := (utf8_decode buf ps fin).1
      if utf8_is_grapheme_extend cur || utf8_is_zwj prev then
        prevClusterAux buf fin ps fuel
      else start

/-- Modelled from the spec: `prev_grapheme_len(bytes, offset)` of the
missing src/utf8.c: byte length of the grapheme cluster ending at `pos`. -/
def utf8_prev_grapheme_len (buf : List Nat) (pos : Nat) : Nat :=
  if pos = 0 then 0
  else pos - prevClusterAux buf pos (prev_cp_start buf pos) pos

/-- Modelled from the spec: `single_cluster_width(bytes, cluster_len)` of
the missing src/utf8.c: the display width of a grapheme cluster starting
at offset 0 is the width of its first (base) codepoint; extenders count 0
and a ZWJ-joined sequence counts the first base only (§4.1). -/
def utf8_single_char_width (bytes : List Nat) (clen : Nat) : Nat :=
  utf8_codepoint_width (utf8_decode bytes 0 clen).1

/-- Iteration of `display_width` over the grapheme clusters of
`buf[0..fin)`; `fuel` bounds the recursion. -/
def strWidthAux (buf : List Nat) (fin : Nat) : Nat → Nat → Nat
  | _, 0 => 0
  | i, fuel+1 =>
    if i < fin then
      let clen := utf8_next_grapheme_len buf i fin
      utf8_single_char_width (buf.drop i) clen + strWidthAux buf fin (i + clen) fuel
    else 0

/-- Modelled from the spec: `display_width(bytes, byte_len)` of the
missing src/utf8.c: sum of the single-cluster widths of the grapheme
clusters of `buf[0..len)`. -/
def utf8_str_width (buf : List Nat) (len : Nat) : Nat :=
  strWidthAux buf len 0 (len + 1)

/-- Number of grapheme clusters of `buf[0..fin)`, walking exactly like the
renderer's mask loop; `fuel` bounds the recursion. -/
def graphemeCountAux (buf : List Nat) (fin : Nat) : Nat → Nat → Nat
  | _, 0 => 0
  | i, fuel+1 =>
    if i < fin then
      1 + graphemeCountAux buf fin (i + utf8_next_grapheme_len buf i fin) fuel
    else 0

/-- Number of grapheme clusters of `buf[0..fin)`. -/
def utf8_grapheme_count (buf : List Nat) (fin : Nat) : Nat :=
  graphemeCountAux buf fin 0 (fin + 1)

/-! ## History store and per-instance context (linenoise.c) -/

/-- A history entry: a NUL-free byte string (C strings cannot contain 0). -/
abbrev Entry := List Nat

/-- The process-global history used by the editing functions
(`history_max_len`, `history_len`, `history` in linenoise.c).  The C field
history_len equals `entries.length`. -/
structure History where
  max_len : Nat
  entries : List Entry
deriving Repr, DecidableEq

def LINENOISE_DEFAULT_HISTORY_MAX_LEN : Nat := 100
def LINENOISE_MAX_LINE : Nat := 4096

/-- linenoise.c `history_add` (the static, global-state version, lines
1657-1684).  Allocation failures are not modelled (malloc succeeds). -/
def history_add (h : History) (line : Entry) : History × Int :=
  if h.max_len = 0 then (h, 0)
  else if h.entries ≠ [] ∧ h.entries.getLast? = some line then (h, 0)
  else
    let es := if h.entries.length = h.max_len then h.entries.tail else h.entries
    ({ h with entries := es ++ [line] }, 1)

/-- linenoise.c `struct linenoise_context`.  The terminal-saved state and
the three callback pointers play no role in the modelled operations and
are omitted; `history_len` equals `history.length`. -/
structure LinenoiseContext where
  maskmode : Bool
  mlmode : Bool
  history_max_len : Nat
  history : List Entry
deriving Repr, DecidableEq

/-- linenoise.c `linenoise_history_add` (context version, lines
1749-1779).  The NULL-context case is modelled by the `Option`; malloc is
assumed to succeed. -/
def linenoise_history_add (octx : Option LinenoiseContext) (line : Entry) :
    Option LinenoiseContext × Int :=
  match octx with
  | none => (none, 0)
  | some ctx =>
    if ctx.history_max_len = 0 then (some ctx, 0)
    else if ctx.history ≠ [] ∧ ctx.history.getLast? = some line then (some ctx, 0)
    else
      let hist := if ctx.history.length = ctx.history_max_len
                  then ctx.history.tail else ctx.history
      (some { ctx with history := hist ++ [line] }, 1)

/-- linenoise.c `linenoise_history_set_max_len` (lines 1782-1809).  On
success the kept entries are the newest `min len history_len` ones; the
final `history_len` clamp of the C code is the trailing `take`. -/
def linenoise_history_set_max_len (octx : Option LinenoiseContext) (len : Int) :
    Option LinenoiseContext × Int :=
  match octx with
  | none => (none, 0)
  | some ctx =>
    if len < 1 then (some ctx, 0)
    else
      let n := len.toNat
      let hist :=
        if ctx.history ≠ [] then
          let tocopy := min ctx.history.length n
          ctx.history.drop (ctx.history.length - tocopy)
        else ctx.history
      let hist := hist.take n
      (some { ctx with history := hist, history_max_len := n }, 1)

/-- linenoise.c `linenoise_history_save` (lines 1812-1830): the byte
stream written to the file — one entry per line, LF-terminated.  (The
open/fdopen failure paths concern the file system, not the stream.) -/
def linenoise_history_save (ctx : LinenoiseContext) : List Nat :=
  (ctx.history.map (fun e => e ++ [10])).flatten

/-- One `fgets(buf, LINENOISE_MAX_LINE, fp)` step: read at most 4095
bytes, stopping after the first LF; `acc` accumulates in reverse. -/
def fgetsAux : List Nat → Nat → List Nat → List Nat × List Nat
  | rest, 0, acc => (acc.reverse, rest)
  | [], _+1, acc => (acc.reverse, [])
  | b :: rest, n+1, acc =>
    if b = 10 then ((b :: acc).reverse, rest) else fgetsAux rest n (b :: acc)

/-- `fgets` with a LINENOISE_MAX_LINE buffer: `none` at end of file. -/
def fgets_line (s : List Nat) : Option (List Nat × List Nat) :=
  match s with
  | [] => none
  | _ => some (fgetsAux s (LINENOISE_MAX_LINE - 1) [])

/-- Index of the first occurrence of byte `b` (the `strchr` calls of
`linenoise_history_load`). -/
def findByte (b : Nat) : List Nat → Option Nat
  | [] => none
  | x :: xs => if x = b then some 0 else (findByte b xs).map Nat.succ

/-- The line-stripping step of `linenoise_history_load`: truncate at the
first CR if any, else at the first LF if any. -/
def strip_line (l : List Nat) : List Nat :=
  match findByte 13 l with
  | some i => l.take i
  | none =>
    match findByte 10 l with
    | some i => l.take i
    | none => l

/-- The `while (fgets(...))` loop of `linenoise_history_load`; `fuel`
bounds the recursion (each fgets consumes at least one byte). -/
def historyLoadAux : Option LinenoiseContext → List Nat → Nat → Option LinenoiseContext
  | octx, _, 0 => octx
  | octx, s, fuel+1 =>
    match fgets_line s with
    | none => octx
    | some (chunk, rest) =>
      historyLoadAux (linenoise_history_add octx (strip_line chunk)).1 rest fuel

/-- linenoise.c `linenoise_history_load` (lines 1833-1851), applied to the
byte stream `file` of the opened file. -/
def linenoise_history_load (ctx : LinenoiseContext) (file : List Nat) : LinenoiseContext :=
  ((historyLoadAux (some ctx) file (file.length + 1)).getD ctx)

/-! ## Edit state and configuration -/

/-- The per-session configuration that linenoise.c keeps in the globals
`maskmode`, `mlmode`, `completionCallback`, `hintsCallback` while an edit
session runs (installed from the context by linenoise_edit_start).  The
completion callback yields the candidate list for a buffer; the hints
callback yields an optional (hint, color, bold) triple. -/
structure EditCfg where
  maskmode : Bool
  mlmode : Bool
  completionCb : Option (List Nat → List (List Nat))
  hintsCb : Option (List Nat → Option (List Nat × Int × Int))

/-- linenoise.h `linenoise_state_t`.  `buf` holds the live bytes
buf[0..len), so the C field `len` is `buf.length`; `plen` is
`prompt.length`.  The render-geometry fields oldpos/oldrows/oldrpos and
the fds, which no modelled operation reads, are omitted. -/
structure LinenoiseState where
  in_completion : Bool
  completion_idx : Nat
  buf : List Nat
  buflen : Nat
  prompt : List Nat
  pos : Nat
  cols : Nat
  history_index : Int
deriving Repr, DecidableEq

/-- The C field `len` of linenoise_state_t. -/
def LinenoiseState.len (l : LinenoiseState) : Nat := l.buf.length

/-- The C field `plen` of linenoise_state_t. -/
def LinenoiseState.plen (l : LinenoiseState) : Nat := l.prompt.length

/-! ## Single-line renderer (refreshSingleLine, linenoise.c 825-895) -/

/-- The local variables (buf, len, pos, poscol, lencol) of
refreshSingleLine during the horizontal scroll/trim loops.  `buf` is the
advanced buffer pointer (the underlying buffer is not mutated). -/
structure ScrollSt where
  buf : List Nat
  len : Nat
  pos : Nat
  poscol : Nat
  lencol : Nat
deriving Repr, DecidableEq

/-- The left-scroll loop of refreshSingleLine (lines 843-851): while the
prompt plus the cursor column reach the terminal width, drop one grapheme
cluster from the left of the viewport.  `fuel` bounds the recursion. -/
def scrollLeftAux (pwidth cols : Nat) : ScrollSt → Nat → ScrollSt
  | s, 0 => s
  | s, fuel+1 =>
    if pwidth + s.poscol ≥ cols then
      let clen := utf8_next_grapheme_len s.buf 0 s.len
      let cwidth := utf8_single_char_width s.buf clen
      scrollLeftAux pwidth cols
        { buf := s.buf.drop clen, len := s.len - clen, pos := s.pos - clen,
          poscol := s.poscol - cwidth, lencol := s.lencol - cwidth } fuel
    else s

/-- The right-trim loop of refreshSingleLine (lines 854-859): while the
prompt plus the line width exceed the terminal width, drop one grapheme
cluster from the right of the displayed window. -/
def trimRightAux (pwidth cols : Nat) : ScrollSt → Nat → ScrollSt
  | s, 0 => s
  | s, fuel+1 =>
    if pwidth + s.lencol > cols then
      let clen := utf8_prev_grapheme_len s.buf s.len
      let cwidth := utf8_single_char_width (s.buf.drop (s.len - clen)) clen
      trimRightAux pwidth cols
        { s with len := s.len - clen, lencol := s.lencol - cwidth } fuel
    else s

/-- The scroll-and-trim phase of refreshSingleLine: left-scroll then
right-trim, starting from the widths computed at lines 837-838. -/
def singleLineViewport (pwidth cols : Nat) (buf : List Nat) (len pos : Nat) : ScrollSt :=
  let s0 : ScrollSt :=
    { buf := buf, len := len, pos := pos,
      poscol := utf8_str_width buf pos, lencol := utf8_str_width buf len }
  let s1 := scrollLeftAux pwidth cols s0 (len + 1)
  trimRightAux pwidth cols s1 (s1.len + 1)

/-- The mask-mode loop of refreshSingleLine (lines 869-875): one `*` per
grapheme cluster of the displayed range. -/
def maskStarsAux (buf : List Nat) (fin : Nat) : Nat → Nat → List Nat
  | _, 0 => []
  | i, fuel+1 =>
    if i < fin then
      42 :: maskStarsAux buf fin (i + utf8_next_grapheme_len buf i fin) fuel
    else []

/-- Decimal digit bytes of a natural number (the `%d` of snprintf). -/
def natDigitsAux : Nat → Nat → List Nat
  | _, 0 => []
  | n, fuel+1 =>
    if n < 10 then [48 + n] else natDigitsAux (n / 10) fuel ++ [48 + n % 10]

/-- Decimal digit bytes of `n`. -/
def natToDigits (n : Nat) : List Nat := natDigitsAux n (n + 1)

/-- The hint-truncation loop of refresh_show_Hints (lines 791-797):
largest byte prefix of the hint whose display width fits `maxw`. -/
def hintTruncAux (hint : List Nat) (hintlen maxw : Nat) : Nat → Nat → Nat → Nat
  | i, _, 0 => i
  | i, w, fuel+1 =>
    if i < hintlen then
      let clen := utf8_next_grapheme_len hint i hintlen
      let cwidth := utf8_single_char_width (hint.drop i) clen
      if w + cwidth > maxw then i
      else hintTruncAux hint hintlen maxw (i + clen) (w + cwidth) fuel
    else i

/-- linenoise.c `refresh_show_Hints` (lines 778-813): the bytes appended
for the hint, empty when no hints callback is set or no space is left. -/
def refresh_show_Hints (cfg : EditCfg) (l : LinenoiseState) (pwidth : Nat) : List Nat :=
  match cfg.hintsCb with
  | none => []
  | some hc =>
    let bufwidth := utf8_str_width l.buf l.len
    if pwidth + bufwidth < l.cols then
      match hc l.buf with
      | none => []
      | some (hint, color0, bold) =>
        let hintlen := hint.length
        let hintwidth := utf8_str_width hint hintlen
        let hintmaxwidth := l.cols - (pwidth + bufwidth)
        let hintlen :=
          if hintwidth > hintmaxwidth then
            hintTruncAux hint hintlen hintmaxwidth 0 0 (hintlen + 1)
          else hintlen
        let color : Int := if bold = 1 ∧ color0 = -1 then 37 else color0
        let seq : List Nat :=
          if color ≠ -1 ∨ bold ≠ 0 then
            [27, 91] ++ natToDigits bold.toNat ++ [59] ++ natToDigits color.toNat ++
              [59, 52, 57, 109]
          else []
        seq ++ hint.take hintlen ++
          (if color ≠ -1 ∨ bold ≠ 0 then [27, 91, 48, 109] else [])
    else []

/-- The frame produced by one refreshSingleLine call, with the viewport
intermediates exposed: `vbuf` is the visible byte slice after scroll and
trim, `vpos` the cursor byte offset inside it, `maskSeg` the bytes emitted
for the buffer area (stars in mask mode), `cursorCol` the column argument
of the final cursor-positioning escape. -/
structure SingleLineFrame where
  vbuf : List Nat
  vpos : Nat
  poscol : Nat
  lencol : Nat
  maskSeg : List Nat
  cursorCol : Nat
  frame : List Nat
deriving Repr, DecidableEq

/-- linenoise.c `refreshSingleLine` (lines 825-895) with REFRESH_WRITE
set (`writeFlag`; REFRESH_CLEAN only affects which segments are present,
exactly as in the C flags logic). -/
def refreshSingleLine (cfg : EditCfg) (l : LinenoiseState) (writeFlag : Bool) :
    SingleLineFrame :=
  let pwidth := utf8_str_width l.prompt l.plen
  let s := singleLineViewport pwidth l.cols l.buf l.len l.pos
  let maskSeg :=
    if cfg.maskmode then maskStarsAux s.buf s.len 0 (s.len + 1)
    else s.buf.take s.len
  let cursorCol := s.poscol + pwidth
  let content :=
    if writeFlag then l.prompt ++ maskSeg ++ refresh_show_Hints cfg l pwidth
    else []
  let cursorSeq :=
    if writeFlag then [13, 27, 91] ++ natToDigits cursorCol ++ [67]
    else []
  { vbuf := s.buf.take s.len, vpos := s.pos, poscol := s.poscol, lencol := s.lencol,
    maskSeg := maskSeg, cursorCol := cursorCol,
    frame := [13] ++ content ++ [27, 91, 48, 75] ++ cursorSeq }

/-- linenoise.c `refresh_line` / `refresh_line_with_flags` with
REFRESH_ALL: the bytes written.  The multi-line renderer's frame bytes are
not modelled (no claim concerns them); in multi-line mode the function
returns no modelled output. -/
def refresh_line (cfg : EditCfg) (l : LinenoiseState) : List Nat :=
  if cfg.mlmode then [] else (refreshSingleLine cfg l true).frame

/-! ## Edit-buffer operations (linenoise.c 1042-1175) -/

/-- linenoise.c `linenoise_edit_insert` (lines 1042-1074): returns the new
state, the bytes written to the terminal, and the return code (terminal
writes are modelled as succeeding, so the code is 0). -/
def linenoise_edit_insert (cfg : EditCfg) (l : LinenoiseState) (c : List Nat) :
    LinenoiseState × List Nat × Int :=
  let clen := c.length
  if l.len + clen ≤ l.buflen then
    if l.len = l.pos then
      let l' := { l with buf := l.buf ++ c, pos := l.pos + clen }
      if !cfg.mlmode &&
         utf8_str_width l'.prompt l'.plen + utf8_str_width l'.buf l'.len < l'.cols &&
         cfg.hintsCb.isNone then
        (l', if cfg.maskmode then [42] else c, 0)
      else
        (l', refresh_line cfg l', 0)
    else
      let l' := { l with buf := l.buf.take l.pos ++ c ++ l.buf.drop l.pos,
                         pos := l.pos + clen }
      (l', refresh_line cfg l', 0)
  else (l, [], 0)

/-- linenoise.c `linenoise_edit_move_left` (lines 1077-1082). -/
def linenoise_edit_move_left (l : LinenoiseState) : LinenoiseState :=
  if l.pos > 0 then { l with pos := l.pos - utf8_prev_grapheme_len l.buf l.pos }
  else l

/-- linenoise.c `linenoise_edit_move_right` (lines 1085-1090). -/
def linenoise_edit_move_right (l : LinenoiseState) : LinenoiseState :=
  if l.pos ≠ l.len then { l with pos := l.pos + utf8_next_grapheme_len l.buf l.pos l.len }
  else l

/-- linenoise.c `linenoise_edit_move_home` (lines 1093-1098). -/
def linenoise_edit_move_home (l : LinenoiseState) : LinenoiseState :=
  if l.pos ≠ 0 then { l with pos := 0 } else l

/-- linenoise.c `linenoiseEditMoveEnd` (lines 1101-1106). -/
def linenoiseEditMoveEnd (l : LinenoiseState) : LinenoiseState :=
  if l.pos ≠ l.len then { l with pos := l.len } else l

/-- linenoise.c `linenoiseEditDelete` (lines 1137-1145). -/
def linenoiseEditDelete (l : LinenoiseState) : LinenoiseState :=
  if l.len > 0 ∧ l.pos < l.len then
    let clen := utf8_next_grapheme_len l.buf l.pos l.len
    { l with buf := l.buf.take l.pos ++ l.buf.drop (l.pos + clen) }
  else l

/-- linenoise.c `linenoiseEditBackspace` (lines 1148-1157). -/
def linenoiseEditBackspace (l : LinenoiseState) : LinenoiseState :=
  if l.pos > 0 ∧ l.len > 0 then
    let clen := utf8_prev_grapheme_len l.buf l.pos
    { l with buf := l.buf.take (l.pos - clen) ++ l.buf.drop l.pos, pos := l.pos - clen }
  else l

/-- The space-skipping loop of linenoiseEditDeletePrevWord: move `pos`
back one grapheme while the preceding byte is a space. -/
def dpwSkipSpaces (buf : List Nat) : Nat → Nat → Nat
  | pos, 0 => pos
  | pos, fuel+1 =>
    if pos > 0 ∧ buf.getD (pos-1) 0 = 32 then
      dpwSkipSpaces buf (pos - utf8_prev_grapheme_len buf pos) fuel
    else pos

/-- The word-skipping loop of linenoiseEditDeletePrevWord: move `pos`
back one grapheme while the preceding byte is not a space. -/
def dpwSkipWord (buf : List Nat) : Nat → Nat → Nat
  | pos, 0 => pos
  | pos, fuel+1 =>
    if pos > 0 ∧ buf.getD (pos-1) 0 ≠ 32 then
      dpwSkipWord buf (pos - utf8_prev_grapheme_len buf pos) fuel
    else pos

/-- linenoise.c `linenoiseEditDeletePrevWord` (lines 1161-1175). -/
def linenoiseEditDeletePrevWord (l : LinenoiseState) : LinenoiseState :=
  let old_pos := l.pos
  let p1 := dpwSkipSpaces l.buf l.pos (l.pos + 1)
  let p2 := dpwSkipWord l.buf p1 (p1 + 1)
  { l with buf := l.buf.take p2 ++ l.buf.drop old_pos, pos := p2 }

/-- `memcpy`/`memmove` into `dst` at offset `off` (memmove semantics: the
source is read in full before the destination is written). -/
def listWrite (dst : List Nat) (off : Nat) (src : List Nat) : List Nat :=
  dst.take off ++ src ++ dst.drop (off + src.length)

/-- The Ctrl-T handler of linenoise_edit_feed (lines 1344-1358): swap the
two grapheme clusters around the cursor when `0 < pos < len`, translated
memcpy/memmove by memcpy/memmove. -/
def editTranspose (l : LinenoiseState) : LinenoiseState :=
  if l.pos > 0 ∧ l.pos < l.len then
    let prevlen := utf8_prev_grapheme_len l.buf l.pos
    let currlen := utf8_next_grapheme_len l.buf l.pos l.len
    let prevstart := l.pos - prevlen
    let tmp := (l.buf.drop l.pos).take currlen
    let moved := (l.buf.drop prevstart).take prevlen
    let buf1 := listWrite l.buf (prevstart + currlen) moved
    let buf2 := listWrite buf1 prevstart tmp
    let pos' := if l.pos + currlen ≤ l.len then l.pos + currlen else l.pos
    { l with buf := buf2, pos := pos' }
  else l

/-- linenoise.c `linenoiseEditHistoryNext` (lines 1112-1132), operating on
the session-global history.  `dir` is LINENOISE_HISTORY_PREV (1) or
LINENOISE_HISTORY_NEXT (0). -/
def linenoiseEditHistoryNext (h : History) (l : LinenoiseState) (dir : Nat) :
    History × LinenoiseState :=
  if h.entries.length > 1 then
    let hlen := h.entries.length
    let h := { h with entries := h.entries.set (hlen - 1 - l.history_index.toNat) l.buf }
    let ni := l.history_index + (if dir = 1 then 1 else -1)
    if ni < 0 then (h, { l with history_index := 0 })
    else if ni ≥ (hlen : Int) then (h, { l with history_index := (hlen : Int) - 1 })
    else
      let e := h.entries.getD (hlen - 1 - ni.toNat) []
      let newbuf := if e.length < l.buflen then e else e.take (l.buflen - 1)
      (h, { l with history_index := ni, buf := newbuf, pos := newbuf.length })
  else (h, l)

/-! ## Completion loop (completeLine, linenoise.c 677-725) -/

/-- The observable outcome of one completeLine call: the new state, the
line shown by the refresh at the end of the call (`none` when the
zero-candidates branch performed no refresh), whether the bell was
emitted, and the returned character. -/
structure CompleteOut where
  ls : LinenoiseState
  displayed : Option (List Nat)
  bell : Bool
  c : Nat
deriving Repr, DecidableEq

/-- linenoise.c `completeLine` (lines 677-725).  `cb` is the completion
callback.  In the acceptance branch the candidate is assumed to fit the
buffer (the C snprintf would otherwise truncate the copy while setting
`len` to the untruncated length). -/
def completeLine (cb : List Nat → List (List Nat)) (ls : LinenoiseState)
    (keypressed : Nat) : CompleteOut :=
  let lc := cb ls.buf
  if lc.length = 0 then
    ⟨{ ls with in_completion := false }, none, true, keypressed⟩
  else
    let next :=
      if keypressed = 9 then
        (if ls.in_completion = false then
          ({ ls with in_completion := true, completion_idx := 0 }, 0)
        else
          ({ ls with completion_idx := (ls.completion_idx + 1) % (lc.length + 1) }, 0))
      else if keypressed = 27 then
        ({ ls with in_completion := false }, 0)
      else
        (if ls.completion_idx < lc.length then
          ({ ls with buf := lc.getD ls.completion_idx [],
                     pos := (lc.getD ls.completion_idx []).length,
                     in_completion := false }, keypressed)
        else ({ ls with in_completion := false }, keypressed))
    let ls' := next.1
    let bell := keypressed = 9 ∧ ls.in_completion = true ∧ ls'.completion_idx = lc.length
    let displayed :=
      if ls'.in_completion = true ∧ ls'.completion_idx < lc.length then
        lc.getD ls'.completion_idx []
      else ls'.buf
    ⟨ls', some displayed, bell, next.2⟩

/-- `t` Tab presses starting from `ls` (each press reaching completeLine
with the Tab character, as linenoise_edit_feed does when a completion
callback is registered). -/
def iterTabs (cb : List Nat → List (List Nat)) : LinenoiseState → Nat → CompleteOut
  | ls, 0 => ⟨ls, none, false, 0⟩
  | ls, n+1 => completeLine cb (iterTabs cb ls n).ls 9

/-! ## The feed state machine (linenoise_edit_feed, linenoise.c 1285-1469) -/

/-- Return value of linenoise_edit_feed: the `more` sentinel, an owned
line, or NULL with the errno recorded at that return (`none` when the
code returns NULL without setting errno). -/
inductive FeedResult where
  | more
  | line (s : List Nat)
  | fail (errno : Option Nat)
deriving Repr, DecidableEq

def EAGAIN : Nat := 11
def ENOENT : Nat := 2

/-- One linenoise_edit_feed call: result, state, session history, and the
input bytes not consumed. -/
structure FeedOut where
  res : FeedResult
  l : LinenoiseState
  hist : History
  rest : List Nat
deriving Repr, DecidableEq

/-- The ESC branch of linenoise_edit_feed (lines 1371-1425).  A
read_byte_with_timeout timeout is modelled as exhaustion of the available
input bytes. -/
def feedEscape (l : LinenoiseState) (h : History) (rest : List Nat) : FeedOut :=
  match rest with
  | [] => ⟨.more, l, h, []⟩
  | s0 :: r1 =>
    match r1 with
    | [] => ⟨.more, l, h, []⟩
    | s1 :: r2 =>
      if s0 = 91 then
        if 48 ≤ s1 ∧ s1 ≤ 57 then
          match r2 with
          | [] => ⟨.more, l, h, []⟩
          | s2 :: r3 =>
            if s2 = 126 ∧ s1 = 51 then ⟨.more, linenoiseEditDelete l, h, r3⟩
            else ⟨.more, l, h, r3⟩
        else
          if s1 = 65 then
            let r := linenoiseEditHistoryNext h l 1
            ⟨.more, r.2, r.1, r2⟩
          else if s1 = 66 then
            let r := linenoiseEditHistoryNext h l 0
            ⟨.more, r.2, r.1, r2⟩
          else if s1 = 67 then ⟨.more, linenoise_edit_move_right l, h, r2⟩
          else if s1 = 68 then ⟨.more, linenoise_edit_move_left l, h, r2⟩
          else if s1 = 72 then ⟨.more, linenoise_edit_move_home l, h, r2⟩
          else if s1 = 70 then ⟨.more, linenoiseEditMoveEnd l, h, r2⟩
          else ⟨.more, l, h, r2⟩
      else if s0 = 79 then
        if s1 = 72 then ⟨.more, linenoise_edit_move_home l, h, r2⟩
        else if s1 = 70 then ⟨.more, linenoiseEditMoveEnd l, h, r2⟩
        else ⟨.more, l, h, r2⟩
      else ⟨.more, l, h, r2⟩

/-- The switch statement of linenoise_edit_feed (lines 1312-1467) on the
(possibly completion-filtered) character `c`.  In the default branch the
continuation bytes the C code failed to read remain uninitialized stack
bytes; they are modelled as 0. -/
def feedSwitch (cfg : EditCfg) (l : LinenoiseState) (h : History) (rest : List Nat)
    (c : Nat) : FeedOut :=
  if c = 13 then
    let h := { h with entries := h.entries.dropLast }
    let l := if cfg.mlmode then linenoiseEditMoveEnd l else l
    ⟨.line l.buf, l, h, rest⟩
  else if c = 3 then ⟨.fail (some EAGAIN), l, h, rest⟩
  else if c = 127 ∨ c = 8 then ⟨.more, linenoiseEditBackspace l, h, rest⟩
  else if c = 4 then
    if l.len > 0 then ⟨.more, linenoiseEditDelete l, h, rest⟩
    else ⟨.fail (some ENOENT), l, { h with entries := h.entries.dropLast }, rest⟩
  else if c = 20 then ⟨.more, editTranspose l, h, rest⟩
  else if c = 2 then ⟨.more, linenoise_edit_move_left l, h, rest⟩
  else if c = 6 then ⟨.more, linenoise_edit_move_right l, h, rest⟩
  else if c = 16 then
    let r := linenoiseEditHistoryNext h l 1
    ⟨.more, r.2, r.1, rest⟩
  else if c = 14 then
    let r := linenoiseEditHistoryNext h l 0
    ⟨.more, r.2, r.1, rest⟩
  else if c = 27 then feedEscape l h rest
  else if c = 21 then ⟨.more, { l with buf := [], pos := 0 }, h, rest⟩
  else if c = 11 then ⟨.more, { l with buf := l.buf.take l.pos }, h, rest⟩
  else if c = 1 then ⟨.more, linenoise_edit_move_home l, h, rest⟩
  else if c = 5 then ⟨.more, linenoiseEditMoveEnd l, h, rest⟩
  else if c = 12 then ⟨.more, l, h, rest⟩
  else if c = 23 then ⟨.more, linenoiseEditDeletePrevWord l, h, rest⟩
  else
    let utf8len := utf8_byte_len c
    let got := rest.take (utf8len - 1)
    let bytes := (c :: got) ++ List.replicate (utf8len - 1 - got.length) 0
    ⟨.more, (linenoise_edit_insert cfg l bytes).1, h, rest.drop (utf8len - 1)⟩

/-- linenoise.c `linenoise_edit_feed` (lines 1285-1469) on the tty path:
consume input bytes, possibly route through completeLine, then dispatch
the switch.  `nread == 0` (empty input) returns NULL with errno untouched.
The `c < 0` check after completeLine compares the returned character as a
signed char, so bytes ≥ 0x80 make the call return NULL. -/
def linenoise_edit_feed (cfg : EditCfg) (l : LinenoiseState) (h : History)
    (input : List Nat) : FeedOut :=
  match input with
  | [] => ⟨.fail none, l, h, []⟩
  | c0 :: rest =>
    match cfg.completionCb with
    | some cb =>
      if l.in_completion = true ∨ c0 = 9 then
        let r := completeLine cb l c0
        if 128 ≤ r.c then ⟨.fail none, r.ls, h, rest⟩
        else if r.c = 0 then ⟨.more, r.ls, h, rest⟩
        else feedSwitch cfg r.ls h rest r.c
      else feedSwitch cfg l h rest c0
    | none => feedSwitch cfg l h rest c0

/-- linenoise.c `edit_start` (lines 1192-1228) on the tty path: fresh
state (completion_idx, left uninitialized by the C code until the first
completion, is modelled as 0; `buflen` is decremented to reserve the NUL
slot) and the tentative empty tail entry pushed onto the history. -/
def edit_start (h : History) (buflen : Nat) (prompt : List Nat) (cols : Nat) :
    LinenoiseState × History :=
  ({ in_completion := false, completion_idx := 0, buf := [], buflen := buflen - 1,
     prompt := prompt, pos := 0, cols := cols, history_index := 0 },
   (history_add h []).1)

/-! ## Codepoint-level view of UTF-8 buffers (for the well-formedness
hypotheses of the grapheme theorems) -/

/-- Standard UTF-8 encoding of a Unicode scalar value (1..4 bytes). -/
def utf8_encode_cp (cp : Nat) : List Nat :=
  if cp < 0x80 then [cp]
  else if cp < 0x800 then [0xC0 + cp / 0x40, 0x80 + cp % 0x40]
  else if cp < 0x10000 then
    [0xE0 + cp / 0x1000, 0x80 + cp / 0x40 % 0x40, 0x80 + cp % 0x40]
  else
    [0xF0 + cp / 0x40000, 0x80 + cp / 0x1000 % 0x40, 0x80 + cp / 0x40 % 0x40,
     0x80 + cp % 0x40]

/-- UTF-8 encoding of a codepoint sequence. -/
def encodeCps (cps : List Nat) : List Nat := (cps.map utf8_encode_cp).flatten

/-- Codepoints representable by the 1..4 byte encoding. -/
def ValidCps (cps : List Nat) : Prop := ∀ cp ∈ cps, cp < 0x110000

/-- The interior condition of a grapheme cluster: every codepoint after
the base is a grapheme extender or is immediately preceded by a ZWJ
(spec §3). -/
def clusterTailOK : Nat → List Nat → Bool
  | _, [] => true
  | prev, c :: rest =>
    (utf8_is_grapheme_extend c || utf8_is_zwj prev) && clusterTailOK c rest

/-- A (possibly degenerate) grapheme cluster: nonempty with a valid
interior.  The base may itself be an extender only for the first cluster
of a buffer. -/
def clusterShape : List Nat → Bool
  | [] => false
  | c :: tl => clusterTailOK c tl

/-- Cluster-boundary conditions between consecutive clusters: the next
base is not an extender and the previous cluster does not end in ZWJ
(otherwise the forward walk would merge them). -/
def segBoundariesOK : List (List Nat) → Bool
  | [] => true
  | [_] => true
  | g1 :: g2 :: rest =>
    !utf8_is_zwj (g1.getLastD 0) && !utf8_is_grapheme_extend (g2.headD 0) &&
    segBoundariesOK (g2 :: rest)

/-- A cluster segmentation of a codepoint sequence. -/
def SegOK (cls : List (List Nat)) : Bool := cls.all clusterShape && segBoundariesOK cls

/-- Codepoint count of the grapheme cluster ending at the end of a
sequence, walking backward (`cur` current codepoint, `ps` the preceding
codepoints nearest first). -/
def prevClusterLenCpsAux : Nat → List Nat → Nat
  | _, [] => 1
  | cur, p :: ps =>
    if utf8_is_grapheme_extend cur || utf8_is_zwj p then 1 + prevClusterLenCpsAux p ps
    else 1

/-- Codepoint count of the last grapheme cluster of `cps`. -/
def lastClusterCpCount (cps : List Nat) : Nat :=
  match cps.reverse with
  | [] => 0
  | c :: rest => prevClusterLenCpsAux c rest

/-- Codepoint-level forward cluster walk: consume extenders, and one more
codepoint after each ZWJ. -/
def takeClusterAux : Bool → List Nat → List Nat × List Nat
  | _, [] => ([], [])
  | prevZWJ, c :: rest =>
    if utf8_is_grapheme_extend c then
      let p := takeClusterAux (utf8_is_zwj c) rest
      (c :: p.1, p.2)
    else if prevZWJ then
      let p := takeClusterAux false rest
      (c :: p.1, p.2)
    else ([], c :: rest)

/-- First grapheme cluster of a codepoint sequence and the remainder. -/
def takeClusterCps : List Nat → List Nat × List Nat
  | [] => ([], [])
  | c :: rest =>
    let p := takeClusterAux (utf8_is_zwj c) rest
    (c :: p.1, p.2)

/-- Forward segmentation of a codepoint sequence into grapheme clusters
(`fuel` bounds the recursion; each cluster is nonempty). -/
def clusterSplitAux : Nat → List Nat → List (List Nat)
  | 0, _ => []
  | _+1, [] => []
  | fuel+1, c :: rest =>
    let p := takeClusterAux (utf8_is_zwj c) rest
    (c :: p.1) :: clusterSplitAux fuel p.2

/-- Forward segmentation of a codepoint sequence into grapheme clusters. -/
def clusterSplitCps (cps : List Nat) : List (List Nat) := clusterSplitAux cps.length cps

/-- Display width of a cluster list: the width of each base codepoint
(extenders and ZWJ-joined sequences count the base only, spec §4.1). -/
def widthCps (cls : List (List Nat)) : Nat :=
  (cls.map (fun g => utf8_codepoint_width (g.headD 0))).sum

/-! ## Basic bounds of the grapheme walks -/

theorem utf8_decode_snd_pos (buf : List Nat) (off fin : Nat) :
    1 ≤ (utf8_decode buf off fin).2 := by
  unfold utf8_decode
  dsimp only
  split_ifs <;> simp

theorem utf8_decode_le (buf : List Nat) (off fin : Nat) (h : off < fin) :
    off + (utf8_decode buf off fin).2 ≤ fin := by
  unfold utf8_decode
  dsimp only
  split_ifs with h1 h2 h3 <;> simp_all <;> omega

theorem nextGraphemeAux_ge (buf : List Nat) (fin : Nat) :
    ∀ fuel off pz, off ≤ nextGraphemeAux buf fin off pz fuel := by
  intro fuel
  induction fuel with
  | zero => intro off pz; simp [nextGraphemeAux]
  | succ n ih =>
    intro off pz
    simp only [nextGraphemeAux]
    split_ifs <;>
      first
        | exact le_trans (Nat.le_add_right _ _) (ih _ _)
        | exact le_refl _

theorem nextGraphemeAux_le (buf : List Nat) (fin : Nat) :
    ∀ fuel off pz, off ≤ fin → nextGraphemeAux buf fin off pz fuel ≤ fin := by
  intro fuel
  induction fuel with
  | zero => intro off pz h; simpa [nextGraphemeAux]
  | succ n ih =>
    intro off pz h
    simp only [nextGraphemeAux]
    split_ifs with hlt h1 h2 <;>
      first
        | exact ih _ _ (utf8_decode_le buf off fin hlt)
        | exact h

theorem utf8_next_grapheme_len_le (buf : List Nat) (off fin : Nat) :
    utf8_next_grapheme_len buf off fin ≤ fin - off := by
  unfold utf8_next_grapheme_len
  dsimp only
  split_ifs with h
  · have := nextGraphemeAux_le buf fin (fin - off)
      (off + (utf8_decode buf off fin).2) (utf8_is_zwj (utf8_decode buf off fin).1)
      (utf8_decode_le buf off fin h)
    omega
  · omega

theorem utf8_next_grapheme_len_pos (buf : List Nat) (off fin : Nat) (h : off < fin) :
    1 ≤ utf8_next_grapheme_len buf off fin := by
  unfold utf8_next_grapheme_len
  dsimp only
  rw [if_pos h]
  have h1 := nextGraphemeAux_ge buf fin (fin - off)
    (off + (utf8_decode buf off fin).2) (utf8_is_zwj (utf8_decode buf off fin).1)
  have h2 := utf8_decode_snd_pos buf off fin
  omega

theorem prev_cp_start_lt (buf : List Nat) : ∀ p, 0 < p → prev_cp_start buf p < p := by
  intro p
  induction p with
  | zero => intro h; omega
  | succ q ih =>
    intro _
    simp only [prev_cp_start]
    split_ifs with h
    · rcases Nat.eq_zero_or_pos q with hq | hq
      · subst hq; simp [prev_cp_start]
      · exact lt_trans (ih hq) (Nat.lt_succ_self q)
    · exact Nat.lt_succ_self q

theorem prevClusterAux_le (buf : List Nat) (fin : Nat) :
    ∀ fuel start, prevClusterAux buf fin start fuel ≤ start := by
  intro fuel
  induction fuel with
  | zero => intro start; simp [prevClusterAux]
  | succ n ih =>
    intro start
    simp only [prevClusterAux]
    split_ifs with h0 hcond
    · omega
    · have h1 : 0 < start := Nat.pos_of_ne_zero h0
      exact le_trans (ih _) (le_of_lt (prev_cp_start_lt buf start h1))
    · exact le_refl _

theorem utf8_prev_grapheme_len_le (buf : List Nat) (pos : Nat) :
    utf8_prev_grapheme_len buf pos ≤ pos := by
  unfold utf8_prev_grapheme_len
  split_ifs <;> omega

theorem utf8_prev_grapheme_len_pos (buf : List Nat) (pos : Nat) (h : 0 < pos) :
    1 ≤ utf8_prev_grapheme_len buf pos := by
  unfold utf8_prev_grapheme_len
  rw [if_neg (by omega)]
  have h1 : prev_cp_start buf pos < pos := prev_cp_start_lt buf pos h
  have h2 := prevClusterAux_le buf pos pos (prev_cp_start buf pos)
  omega

/-! ## Claim C10 -/

/-- Claim C10: for every requested length `len < 1`, and likewise for a
null context, `linenoise_history_set_max_len` returns 0 (failure) and
leaves the context completely unchanged (history_max_len, history_len and
every stored entry). -/
theorem claim_C10 (ctx : LinenoiseContext) (len : Int) (h : len < 1) :
    linenoise_history_set_max_len (some ctx) len = (some ctx, 0) ∧
    linenoise_history_set_max_len none len = (none, 0) := by
  refine ⟨?_, rfl⟩
  simp only [linenoise_history_set_max_len, if_pos h]

theorem claim_C10_witness :
    ((-3 : Int) < 1) ∧
    linenoise_history_set_max_len (some ⟨false, false, 7, [[104, 105]]⟩) (-3)
      = (some ⟨false, false, 7, [[104, 105]]⟩, 0) ∧
    linenoise_history_set_max_len none (-3) = (none, 0) :=
  ⟨by decide, (claim_C10 ⟨false, false, 7, [[104, 105]]⟩ (-3) (by decide)).1,
   (claim_C10 ⟨false, false, 7, [[104, 105]]⟩ (-3) (by decide)).2⟩

/-! ## Claim C5 -/

/-- Claim C5: `linenoise_history_add` is a no-op returning 0 when
`history_max_len = 0` or when the line equals the current tail entry;
otherwise a copy of the line is appended at the tail, after dropping the
oldest (head) entry and shifting when `history_len = history_max_len`. -/
theorem claim_C5 (ctx : LinenoiseContext) (line : Entry) :
    (ctx.history_max_len = 0 → linenoise_history_add (some ctx) line = (some ctx, 0)) ∧
    (ctx.history.getLast? = some line →
      linenoise_history_add (some ctx) line = (some ctx, 0)) ∧
    (ctx.history_max_len ≠ 0 → ctx.history.getLast? ≠ some line →
      linenoise_history_add (some ctx) line =
        (some { ctx with history :=
            (if ctx.history.length = ctx.history_max_len then ctx.history.tail
             else ctx.history) ++ [line] }, 1)) := by
  refine ⟨?_, ?_, ?_⟩
  · intro h
    simp only [linenoise_history_add, if_pos h]
  · intro h
    have hne : ctx.history ≠ [] := by
      intro hnil
      rw [hnil] at h
      simp at h
    by_cases hmax : ctx.history_max_len = 0
    · simp only [linenoise_history_add, if_pos hmax]
    · have hp : ctx.history ≠ [] ∧ ctx.history.getLast? = some line := ⟨hne, h⟩
      simp only [linenoise_history_add, if_neg hmax, if_pos hp]
  · intro hmax hlast
    have : ¬(ctx.history ≠ [] ∧ ctx.history.getLast? = some line) := by
      rintro ⟨-, h⟩
      exact hlast h
    simp only [linenoise_history_add, if_neg hmax, if_neg this]

theorem claim_C5_witness :
    linenoise_history_add (some ⟨false, false, 2, [[97], [98]]⟩) [99]
      = (some ⟨false, false, 2, [[98], [99]]⟩, 1) := by
  have h := (claim_C5 ⟨false, false, 2, [[97], [98]]⟩ [99]).2.2 (by decide) (by decide)
  exact h.trans (by decide)

/-! ## Claim C3 -/

/-- Claim C3: in fixed-buffer mode an insertion with `len + n > buflen` is
dropped silently and atomically: the state (buffer bytes, len, pos) is
unchanged, nothing is written to the terminal, and the result is still
success (0). -/
theorem claim_C3 (cfg : EditCfg) (l : LinenoiseState) (c : List Nat)
    (h : l.len + c.length > l.buflen) :
    linenoise_edit_insert cfg l c = (l, [], 0) := by
  unfold linenoise_edit_insert
  rw [if_neg (by omega)]

theorem claim_C3_witness :
    (let s : LinenoiseState :=
      { in_completion := false, completion_idx := 0, buf := [104, 105], buflen := 3,
        prompt := [], pos := 2, cols := 80, history_index := 0 }
    s.len + 2 > s.buflen ∧
      linenoise_edit_insert ⟨false, false, none, none⟩ s [33, 33] = (s, [], 0)) :=
  ⟨by decide, claim_C3 ⟨false, false, none, none⟩ _ [33, 33] (by decide)⟩

/-! ## Claim C1 -/

/-- Claim C1 counterexample: starting a session over the history ["x"]
pushes the tentative tail entry "", and feeding Ctrl-C returns NULL with
errno EAGAIN but does NOT remove that entry: the history still holds
["x", ""], not the pre-session ["x"] the claim requires. -/
theorem claim_C1_counterexample :
    (linenoise_edit_feed ⟨false, false, none, none⟩
        (edit_start ⟨100, [[120]]⟩ 64 [] 80).1 (edit_start ⟨100, [[120]]⟩ 64 [] 80).2
        [3]).res = .fail (some EAGAIN) ∧
    (linenoise_edit_feed ⟨false, false, none, none⟩
        (edit_start ⟨100, [[120]]⟩ 64 [] 80).1 (edit_start ⟨100, [[120]]⟩ 64 [] 80).2
        [3]).hist.entries = [[120], []] ∧
    [[120], []] ≠ [([120] : Entry)] := by decide

/-- Claim C1 (amended): for a session started with edit_start (which
pushes a tentative empty tail entry when the history limit is nonzero and
the tail is not already empty), feeding Ctrl-C returns the failure
sentinel NULL with errno EAGAIN but performs NO history cleanup: state and
history are returned unchanged, so the tentative tail entry remains and
the history differs from the pre-session history.  Only the
Ctrl-D-on-empty-buffer path removes the tentative tail entry. -/
theorem claim_C1 (cfg : EditCfg) (h : History) (buflen : Nat) (prompt : List Nat)
    (cols : Nat) (hmax : h.max_len ≠ 0) (hlast : h.entries.getLast? ≠ some []) :
    linenoise_edit_feed cfg (edit_start h buflen prompt cols).1
        (edit_start h buflen prompt cols).2 [3]
      = ⟨.fail (some EAGAIN), (edit_start h buflen prompt cols).1,
         (edit_start h buflen prompt cols).2, []⟩ ∧
    (edit_start h buflen prompt cols).2.entries
      = (if h.entries.length = h.max_len then h.entries.tail else h.entries) ++ [[]] ∧
    (edit_start h buflen prompt cols).2.entries ≠ h.entries ∧
    linenoise_edit_feed cfg (edit_start h buflen prompt cols).1
        (edit_start h buflen prompt cols).2 [4]
      = ⟨.fail (some ENOENT), (edit_start h buflen prompt cols).1,
         { (edit_start h buflen prompt cols).2 with
           entries := (edit_start h buflen prompt cols).2.entries.dropLast }, []⟩ := by
  have hadd : (edit_start h buflen prompt cols).2.entries
      = (if h.entries.length = h.max_len then h.entries.tail else h.entries) ++ [[]] := by
    have hdup : ¬(h.entries ≠ [] ∧ h.entries.getLast? = some []) := by
      rintro ⟨-, hl⟩
      exact hlast hl
    simp only [edit_start, history_add, if_neg hmax, if_neg hdup]
  refine ⟨?_, hadd, ?_, ?_⟩
  · cases hcb : cfg.completionCb with
    | none =>
      simp [linenoise_edit_feed, hcb, feedSwitch, edit_start]
    | some cb =>
      simp [linenoise_edit_feed, hcb, feedSwitch, edit_start]
  · intro heq
    rw [hadd] at heq
    have : h.entries.getLast? = some [] := by
      rw [← heq]
      exact List.getLast?_concat _
    exact hlast this
  · cases hcb : cfg.completionCb with
    | none =>
      simp [linenoise_edit_feed, hcb, feedSwitch, edit_start, LinenoiseState.len]
    | some cb =>
      simp [linenoise_edit_feed, hcb, feedSwitch, edit_start, LinenoiseState.len]

theorem claim_C1_witness :
    (⟨100, [[120]]⟩ : History).max_len ≠ 0 ∧
    (⟨100, [[120]]⟩ : History).entries.getLast? ≠ some [] ∧
    (linenoise_edit_feed ⟨false, false, none, none⟩
        (edit_start ⟨100, [[120]]⟩ 64 [] 80).1 (edit_start ⟨100, [[120]]⟩ 64 [] 80).2
        [3]).hist.entries ≠ [([120] : Entry)] := by
  refine ⟨by decide, by decide, ?_⟩
  have hc := claim_C1 ⟨false, false, none, none⟩ ⟨100, [[120]]⟩ 64 [] 80
    (by decide) (by decide)
  rw [hc.1]
  simpa using hc.2.2.1

/-! ## Claim C2 -/

/-- Claim C2 counterexample: in the state with buffer "ab" and the cursor
at the end (pos = len = 2, two grapheme clusters precede the cursor), the
Ctrl-T handler leaves the state unchanged — it does not swap the two
preceding graphemes to "ba" as the claim requires. -/
theorem claim_C2_counterexample :
    editTranspose ⟨false, 0, [97, 98], 63, [], 2, 80, 0⟩
      = ⟨false, 0, [97, 98], 63, [], 2, 80, 0⟩ ∧
    ([97, 98] : List Nat) ≠ [98, 97] := by decide

/-- Claim C2 (amended): when the cursor is in the interior
(0 < pos < len), Ctrl-T swaps the grapheme cluster ending at pos with the
grapheme cluster starting at pos and advances pos past the swap; when the
cursor is at the end of the buffer (pos = len), Ctrl-T is a no-op (the
handler requires pos < len and performs no swap of the two preceding
graphemes). -/
theorem claim_C2 (l : LinenoiseState) :
    (0 < l.pos → l.pos < l.len →
      editTranspose l =
        { l with
          buf := l.buf.take (l.pos - utf8_prev_grapheme_len l.buf l.pos)
              ++ (l.buf.drop l.pos).take (utf8_next_grapheme_len l.buf l.pos l.len)
              ++ (l.buf.drop (l.pos - utf8_prev_grapheme_len l.buf l.pos)).take
                   (utf8_prev_grapheme_len l.buf l.pos)
              ++ l.buf.drop (l.pos + utf8_next_grapheme_len l.buf l.pos l.len),
          pos := l.pos + utf8_next_grapheme_len l.buf l.pos l.len }) ∧
    (l.pos = l.len → editTranspose l = l) := by
  constructor
  · intro hpos hlt
    have hprev := utf8_prev_grapheme_len_le l.buf l.pos
    have hcurr := utf8_next_grapheme_len_le l.buf l.pos l.len
    set pl := utf8_prev_grapheme_len l.buf l.pos with hpl
    set cl := utf8_next_grapheme_len l.buf l.pos l.len with hcl
    have hc : l.pos + cl ≤ l.len := by omega
    have hcond : l.pos > 0 ∧ l.pos < l.len := ⟨hpos, hlt⟩
    rw [editTranspose, if_pos hcond]
    simp only [listWrite, ← hpl, ← hcl]
    have hlen : l.len = l.buf.length := rfl
    have hmoved : ((l.buf.drop (l.pos - pl)).take pl).length = pl := by
      rw [List.length_take, List.length_drop]
      omega
    have htmp : ((l.buf.drop l.pos).take cl).length = cl := by
      rw [List.length_take, List.length_drop]
      omega
    have htk : (l.buf.take (l.pos - pl + cl)).length = l.pos - pl + cl := by
      rw [List.length_take]
      omega
    rw [hmoved, htmp]
    -- buf1 = l.buf.take (ps+cl) ++ moved ++ l.buf.drop (ps+cl+pl)
    have hstep1 :
        ((l.buf.take (l.pos - pl + cl) ++ ((l.buf.drop (l.pos - pl)).take pl ++
            l.buf.drop (l.pos - pl + cl + pl))).take (l.pos - pl))
          = l.buf.take (l.pos - pl) := by
      rw [List.take_append_of_le_length (by omega : l.pos - pl ≤ (l.buf.take (l.pos - pl + cl)).length),
          List.take_take]
      congr 1
      omega
    have hstep2 :
        ((l.buf.take (l.pos - pl + cl) ++ ((l.buf.drop (l.pos - pl)).take pl ++
            l.buf.drop (l.pos - pl + cl + pl))).drop (l.pos - pl + cl))
          = (l.buf.drop (l.pos - pl)).take pl ++ l.buf.drop (l.pos - pl + cl + pl) := by
      exact List.drop_left' htk
    rw [if_pos hc]
    congr 1
    rw [List.append_assoc (l.buf.take (l.pos - pl + cl)), hstep1, hstep2]
    have hd : l.pos - pl + cl + pl = l.pos + cl := by omega
    rw [hd]
    simp [List.append_assoc]
  · intro heq
    rw [editTranspose, if_neg (by omega)]

theorem claim_C2_witness :
    editTranspose ⟨false, 0, [97, 98, 99], 63, [], 1, 80, 0⟩
      = ⟨false, 0, [98, 97, 99], 63, [], 2, 80, 0⟩ ∧
    editTranspose ⟨false, 0, [97, 99], 63, [], 2, 80, 0⟩
      = ⟨false, 0, [97, 99], 63, [], 2, 80, 0⟩ := by
  constructor
  · have hc := (claim_C2 ⟨false, 0, [97, 98, 99], 63, [], 1, 80, 0⟩).1
      (by decide) (by decide)
    exact hc.trans (by decide)
  · exact (claim_C2 ⟨false, 0, [97, 99], 63, [], 2, 80, 0⟩).2 (by decide)

/-! ## Claim C7 -/

/-- Claim C7: with N > 0 completion candidates, the t-th Tab press leaves
`completion_idx = (t-1) mod (N+1)`; the displayed line is candidate
`c[completion_idx]` whenever `completion_idx < N`, and when it reaches N
the bell is emitted and the original buffer is displayed again (the
buffer itself is never modified by Tab navigation). -/
theorem claim_C7 (cb : List Nat → List (List Nat)) (ls0 : LinenoiseState) (t : Nat)
    (hN : 0 < (cb ls0.buf).length) (h0 : ls0.in_completion = false) (ht : 1 ≤ t) :
    (iterTabs cb ls0 t).ls.completion_idx = (t - 1) % ((cb ls0.buf).length + 1) ∧
    (iterTabs cb ls0 t).ls.buf = ls0.buf ∧
    (iterTabs cb ls0 t).ls.in_completion = true ∧
    (iterTabs cb ls0 t).displayed =
      some (if (t - 1) % ((cb ls0.buf).length + 1) < (cb ls0.buf).length
            then (cb ls0.buf).getD ((t - 1) % ((cb ls0.buf).length + 1)) []
            else ls0.buf) ∧
    ((iterTabs cb ls0 t).bell = true ↔
      (t - 1) % ((cb ls0.buf).length + 1) = (cb ls0.buf).length) := by
  induction t with
  | zero => omega
  | succ n ih =>
    rcases Nat.eq_zero_or_pos n with hn | hn
    · subst hn
      have hstep : iterTabs cb ls0 1 = completeLine cb ls0 9 := rfl
      rw [hstep, completeLine]
      dsimp only
      rw [if_neg (by omega : ¬(cb ls0.buf).length = 0), if_pos rfl, h0]
      rw [if_pos rfl]
      dsimp only
      refine ⟨rfl, rfl, rfl, ?_, ?_⟩
      · simp [hN]
      · simp [h0]
        omega
    · have hr := ih hn
      obtain ⟨hidx, hbuf, hic, hdisp, hbell⟩ := hr
      have hmod : ((n - 1) % ((cb ls0.buf).length + 1) + 1) % ((cb ls0.buf).length + 1)
          = n % ((cb ls0.buf).length + 1) := by
        conv_rhs => rw [show n = (n - 1) + 1 by omega]
        rw [Nat.add_mod (n-1) 1]
        rw [Nat.mod_eq_of_lt (by omega : 1 < (cb ls0.buf).length + 1)]
      have hstep : iterTabs cb ls0 (n+1) = completeLine cb (iterTabs cb ls0 n).ls 9 := rfl
      rw [hstep, completeLine, hbuf]
      dsimp only
      rw [if_neg (by omega : ¬(cb ls0.buf).length = 0), if_pos rfl, hic]
      rw [if_neg (by simp : ¬(true = false))]
      dsimp only
      rw [hidx, hmod]
      have hn1 : n + 1 - 1 = n := by omega
      rw [hn1]
      refine ⟨rfl, rfl, rfl, ?_, ?_⟩
      · by_cases hlt : n % ((cb ls0.buf).length + 1) < (cb ls0.buf).length
        · simp [hlt]
        · simp [hlt]
      · simp

theorem claim_C7_witness :
    (0 < ([[104, 97]] : List (List Nat)).length) ∧
    (iterTabs (fun _ => [[104, 97]]) ⟨false, 0, [104], 63, [], 1, 80, 0⟩ 1).displayed
      = some [104, 97] ∧
    (iterTabs (fun _ => [[104, 97]]) ⟨false, 0, [104], 63, [], 1, 80, 0⟩ 2).displayed
      = some [104] ∧
    (iterTabs (fun _ => [[104, 97]]) ⟨false, 0, [104], 63, [], 1, 80, 0⟩ 2).bell = true := by
  have h1 := claim_C7 (fun _ => [[104, 97]]) ⟨false, 0, [104], 63, [], 1, 80, 0⟩ 1
    (by decide) (by decide) (by decide)
  have h2 := claim_C7 (fun _ => [[104, 97]]) ⟨false, 0, [104], 63, [], 1, 80, 0⟩ 2
    (by decide) (by decide) (by decide)
  refine ⟨by decide, ?_, ?_, ?_⟩
  · exact h1.2.2.2.1.trans (by decide)
  · exact h2.2.2.2.1.trans (by decide)
  · exact h2.2.2.2.2.mpr (by decide)

/-! ## Claim C6: history save/load round trip -/

theorem fgetsAux_cons_ne (b : Nat) (s : List Nat) (n : Nat) (acc : List Nat)
    (hb : ¬b = 10) : fgetsAux (b :: s) (n+1) acc = fgetsAux s n (b :: acc) := by
  simp [fgetsAux, hb]

theorem fgetsAux_cons_newline (s : List Nat) (n : Nat) (acc : List Nat) :
    fgetsAux (10 :: s) (n+1) acc = (acc.reverse ++ [10], s) := by
  simp [fgetsAux]

theorem fgetsAux_newline (e : List Nat) : ∀ (n : Nat) (acc rest : List Nat),
    10 ∉ e → e.length < n →
    fgetsAux (e ++ 10 :: rest) n acc = (acc.reverse ++ (e ++ [10]), rest) := by
  induction e with
  | nil =>
    intro n acc rest _ hn
    obtain ⟨m, rfl⟩ : ∃ m, n = m + 1 := ⟨n - 1, by omega⟩
    simpa using fgetsAux_cons_newline rest m acc
  | cons b e' ih =>
    intro n acc rest hmem hn
    obtain ⟨m, rfl⟩ : ∃ m, n = m + 1 := ⟨n - 1, by omega⟩
    have hb : ¬b = 10 := by intro h; exact hmem (by simp [h])
    rw [List.cons_append, fgetsAux_cons_ne b _ m acc hb,
      ih m (b :: acc) rest (by intro h; exact hmem (by simp [h])) (by simp at hn; omega)]
    simp

theorem fgetsAux_noNewline : ∀ (n : Nat) (s acc : List Nat),
    (∀ b ∈ s.take n, b ≠ 10) → n ≤ s.length →
    fgetsAux s n acc = (acc.reverse ++ s.take n, s.drop n) := by
  intro n
  induction n with
  | zero => intro s acc _ _; simp [fgetsAux]
  | succ m ih =>
    intro s acc hmem hlen
    match s with
    | [] => simp at hlen
    | b :: s' =>
      have hb : ¬b = 10 := hmem b (by simp)
      rw [fgetsAux_cons_ne b s' m acc hb,
        ih s' (b :: acc) (fun x hx => hmem x (by simp [hx])) (by simp at hlen; omega)]
      simp [List.take_cons, hb]

theorem findByte_cons (b x : Nat) (xs : List Nat) :
    findByte b (x :: xs) = if x = b then some 0 else (findByte b xs).map Nat.succ := rfl

theorem findByte_of_not_mem (b : Nat) : ∀ l : List Nat, b ∉ l → findByte b l = none := by
  intro l
  induction l with
  | nil => intro _; rfl
  | cons x xs ih =>
    intro h
    have hx : ¬x = b := by intro he; exact h (by simp [he])
    rw [findByte_cons, if_neg hx, ih (by intro hm; exact h (by simp [hm]))]
    rfl

theorem findByte_append_self (b : Nat) : ∀ (e t : List Nat), b ∉ e →
    findByte b (e ++ b :: t) = some e.length := by
  intro e
  induction e with
  | nil => intro t _; simp [findByte_cons]
  | cons x xs ih =>
    intro t h
    have hx : ¬x = b := by intro he; exact h (by simp [he])
    rw [List.cons_append, findByte_cons, if_neg hx, ih t (by intro hm; exact h (by simp [hm]))]
    rfl

theorem strip_line_entry (e : List Nat) (h13 : 13 ∉ e) (h10 : 10 ∉ e) :
    strip_line (e ++ [10]) = e := by
  unfold strip_line
  have hn13 : findByte 13 (e ++ [10]) = none := by
    apply findByte_of_not_mem
    intro h
    rcases List.mem_append.mp h with h | h
    · exact h13 h
    · simp at h
  rw [hn13, findByte_append_self 10 e [] h10]
  exact List.take_left e [10]

/-- Appending branch of linenoise_history_add (internal lemma for the
round-trip proof). -/
theorem history_add_append_case (ctx : LinenoiseContext) (e : Entry)
    (hlast : ctx.history.getLast? ≠ some e)
    (hlen : ctx.history.length < ctx.history_max_len) :
    linenoise_history_add (some ctx) e
      = (some { ctx with history := ctx.history ++ [e] }, 1) := by
  have hmax : ¬ctx.history_max_len = 0 := by omega
  have hdup : ¬(ctx.history ≠ [] ∧ ctx.history.getLast? = some e) := by
    rintro ⟨-, h⟩
    exact hlast h
  simp only [linenoise_history_add, if_neg hmax, if_neg hdup,
    if_neg (by omega : ¬ctx.history.length = ctx.history_max_len)]

theorem historyLoadAux_serialize : ∀ (es : List Entry) (ctx : LinenoiseContext)
    (fuel : Nat),
    ((es.map (fun e => e ++ [10])).flatten).length < fuel →
    (∀ e ∈ es, 10 ∉ e ∧ 13 ∉ e ∧ e.length ≤ 4094) →
    ctx.history.length + es.length ≤ ctx.history_max_len →
    List.Chain' (· ≠ ·) (ctx.history ++ es) →
    historyLoadAux (some ctx) ((es.map (fun e => e ++ [10])).flatten) fuel
      = some { ctx with history := ctx.history ++ es } := by
  intro es
  induction es with
  | nil =>
    intro ctx fuel hf _ _ _
    obtain ⟨m, rfl⟩ : ∃ m, fuel = m + 1 := ⟨fuel - 1, by omega⟩
    simp [historyLoadAux, fgets_line]
  | cons e es' ih =>
    intro ctx fuel hf hgood hlen hchain
    obtain ⟨m, rfl⟩ : ∃ m, fuel = m + 1 := ⟨fuel - 1, by omega⟩
    obtain ⟨h10, h13, hle⟩ := hgood e (by simp)
    have hstream : (((e :: es').map (fun x => x ++ [10])).flatten)
        = e ++ 10 :: ((es'.map (fun x => x ++ [10])).flatten) := by
      simp
    have hfg : fgets_line (e ++ 10 :: ((es'.map (fun x => x ++ [10])).flatten))
        = some (e ++ [10], (es'.map (fun x => x ++ [10])).flatten) := by
      have hrun := fgetsAux_newline e (LINENOISE_MAX_LINE - 1) []
        ((es'.map (fun x => x ++ [10])).flatten) h10
        (by simp only [LINENOISE_MAX_LINE]; omega)
      cases e with
      | nil => simpa [fgets_line] using hrun
      | cons b e2 => simpa [fgets_line] using hrun
    have hlast : ctx.history.getLast? ≠ some e := by
      intro heq
      rcases List.chain'_append.mp hchain with ⟨-, -, hrel⟩
      exact hrel e heq e (by simp) rfl
    have hadd := history_add_append_case ctx e hlast (by simp at hlen; omega)
    rw [hstream]
    simp only [historyLoadAux]
    rw [hfg]
    simp only [strip_line_entry e h13 h10, hadd]
    rw [hstream] at hf
    simp only [List.length_append, List.length_cons] at hf
    have hrec := ih { ctx with history := ctx.history ++ [e] } m
      (by omega)
      (fun x hx => hgood x (by simp [hx]))
      (by simp only [List.length_append, List.length_cons, List.length_nil]
          simp at hlen
          omega)
      (by
        have hassoc : (ctx.history ++ [e]) ++ es' = ctx.history ++ (e :: es') := by simp
        rw [hassoc]
        exact hchain)
    rw [hrec]
    simp


theorem historyLoadAux_step (octx : Option LinenoiseContext) (s : List Nat)
    (fuel : Nat) (chunk rest : List Nat) (hfg : fgets_line s = some (chunk, rest)) :
    historyLoadAux octx s (fuel+1)
      = historyLoadAux (linenoise_history_add octx (strip_line chunk)).1 rest fuel := by
  simp only [historyLoadAux, hfg]

theorem historyLoadAux_nil (octx : Option LinenoiseContext) (fuel : Nat) :
    historyLoadAux octx [] fuel = octx := by
  cases fuel with
  | zero => rfl
  | succ m => rfl

/-- Claim C6 counterexample: a history whose single entry is 4095 'a'
bytes (no CR/LF anywhere) does not survive the save/load round trip: the
4096-byte fgets buffer splits the line, and the load yields the entry
followed by a spurious empty entry. -/
theorem claim_C6_counterexample :
    (linenoise_history_load ⟨false, false, 100, []⟩
        (linenoise_history_save ⟨false, false, 100, [List.replicate 4095 97]⟩)).history
      = [List.replicate 4095 97, []] ∧
    [List.replicate 4095 97, ([] : Entry)] ≠ [List.replicate 4095 97] := by
  have h97 : ∀ b ∈ List.replicate 4095 (97 : Nat), b = 97 :=
    fun b hb => List.eq_of_mem_replicate hb
  have hRlen : (List.replicate 4095 (97 : Nat)).length = 4095 := List.length_replicate _ _
  have hsave : linenoise_history_save ⟨false, false, 100, [List.replicate 4095 97]⟩
      = List.replicate 4095 97 ++ [10] := by
    show (([List.replicate 4095 (97:Nat)]).map (fun e => e ++ [10])).flatten = _
    rw [List.map_cons, List.map_nil, List.flatten_cons, List.flatten_nil, List.append_nil]
  have htake : (List.replicate 4095 (97 : Nat) ++ [10]).take 4095
      = List.replicate 4095 97 := List.take_left' hRlen
  have hdrop : (List.replicate 4095 (97 : Nat) ++ [10]).drop 4095 = [10] :=
    List.drop_left' hRlen
  have hfg1 : fgets_line (List.replicate 4095 (97 : Nat) ++ [10])
      = some (List.replicate 4095 97, [10]) := by
    have hrun := fgetsAux_noNewline 4095
      (List.replicate 4095 (97 : Nat) ++ [10]) []
      (by
        intro b hb
        rw [htake] at hb
        have := h97 b hb
        omega)
      (by rw [List.length_append, hRlen]; omega)
    rw [htake, hdrop, List.reverse_nil, List.nil_append] at hrun
    have hcons : List.replicate 4095 (97 : Nat) ++ [10]
        = 97 :: (List.replicate 4094 97 ++ [10]) := by
      rw [show (4095 : Nat) = 4094 + 1 from rfl, List.replicate_succ, List.cons_append]
    rw [hcons] at hrun ⊢
    show some (fgetsAux (97 :: (List.replicate 4094 97 ++ [10])) 4095 []) = _
    rw [hrun]
  have hstrip1 : strip_line (List.replicate 4095 (97 : Nat)) = List.replicate 4095 97 := by
    unfold strip_line
    rw [findByte_of_not_mem 13 _ (by intro h; have := h97 _ h; omega),
        findByte_of_not_mem 10 _ (by intro h; have := h97 _ h; omega)]
  have hadd1 := history_add_append_case ⟨false, false, 100, []⟩
    (List.replicate 4095 97) (fun h => Option.noConfusion h) (by decide)
  have hfg2 : fgets_line [10] = some ([10], []) := by
    show some (fgetsAux (10 :: []) 4095 []) = _
    rw [show (4095 : Nat) = 4094 + 1 from rfl, fgetsAux_cons_newline]
    rfl
  have hstrip2 : strip_line [10] = [] := by
    unfold strip_line
    rw [findByte_of_not_mem 13 _ (by decide), findByte_cons]
    rfl
  have hRne : ([List.replicate 4095 (97:Nat)] : List Entry).getLast? ≠ some [] := by
    intro h
    have h2 : List.replicate 4095 (97:Nat) = ([] : List Nat) := by
      have : some (List.replicate 4095 (97:Nat)) = some ([] : List Nat) := h
      injection this
    have := congrArg List.length h2
    rw [hRlen] at this
    simp only [List.length_nil] at this
    omega
  have hadd2 := history_add_append_case ⟨false, false, 100, [List.replicate 4095 97]⟩
    [] hRne (by decide)
  refine ⟨?_, ?_⟩
  · rw [hsave]
    unfold linenoise_history_load
    generalize hR : List.replicate 4095 (97:Nat) = R at hfg1 hstrip1 hadd1 hadd2 ⊢
    have hlen1 : (R ++ [10]).length = R.length + 1 := by
      rw [List.length_append]; rfl
    rw [hlen1, historyLoadAux_step _ _ _ _ _ hfg1, hstrip1, hadd1]
    dsimp only [List.nil_append]
    rw [historyLoadAux_step _ _ _ _ _ hfg2, hstrip2, hadd2]
    dsimp only [List.nil_append]
    rw [historyLoadAux_nil]
    rfl
  · intro h
    have := congrArg List.length h
    simp only [List.length_cons, List.length_nil] at this
    omega

/-- Claim C6 (amended): for a history satisfying the data-model
invariants (NUL-free entries, no two consecutive entries byte-equal,
history_len ≤ history_max_len) whose entries contain no CR or LF bytes
AND are each at most 4094 bytes long (so that entry plus LF fits one
fgets buffer of LINENOISE_MAX_LINE bytes), save followed by load into a
fresh context with the same history_max_len yields an identical ordered
entry list. -/
theorem claim_C6 (ctx : LinenoiseContext)
    (hgood : ∀ e ∈ ctx.history, 10 ∉ e ∧ 13 ∉ e ∧ 0 ∉ e ∧ e.length ≤ 4094)
    (hlen : ctx.history.length ≤ ctx.history_max_len)
    (hchain : List.Chain' (· ≠ ·) ctx.history) :
    linenoise_history_load ⟨false, false, ctx.history_max_len, []⟩
        (linenoise_history_save ctx)
      = ⟨false, false, ctx.history_max_len, ctx.history⟩ := by
  unfold linenoise_history_load linenoise_history_save
  rw [historyLoadAux_serialize ctx.history ⟨false, false, ctx.history_max_len, []⟩ _
    (by omega)
    (fun e he => ⟨(hgood e he).1, (hgood e he).2.1, (hgood e he).2.2.2⟩)
    (by simpa using hlen)
    (by simpa using hchain)]
  simp

theorem claim_C6_witness :
    linenoise_history_load ⟨false, false, 5, []⟩
        (linenoise_history_save ⟨false, false, 5, [[102, 111, 111], [98, 97, 114]]⟩)
      = ⟨false, false, 5, [[102, 111, 111], [98, 97, 114]]⟩ := by
  exact claim_C6 ⟨false, false, 5, [[102, 111, 111], [98, 97, 114]]⟩
    (by decide) (by decide)
    (by refine List.chain'_cons.mpr ⟨by decide, List.chain'_singleton _⟩)

/-! ## Encoded-buffer lemmas: the byte walks on well-formed UTF-8 -/

theorem encodeCps_cons (c : Nat) (cs : List Nat) :
    encodeCps (c :: cs) = utf8_encode_cp c ++ encodeCps cs := by
  simp [encodeCps]

theorem encodeCps_append (a b : List Nat) :
    encodeCps (a ++ b) = encodeCps a ++ encodeCps b := by
  simp [encodeCps]

theorem utf8_encode_cp_length_pos (cp : Nat) : 1 ≤ (utf8_encode_cp cp).length := by
  unfold utf8_encode_cp
  split_ifs <;> simp

theorem encodeCps_length_pos (cps : List Nat) (h : cps ≠ []) :
    1 ≤ (encodeCps cps).length := by
  match cps with
  | c :: cs =>
    rw [encodeCps_cons, List.length_append]
    have := utf8_encode_cp_length_pos c
    omega

theorem encodeCps_count_le (cps : List Nat) :
    cps.length ≤ (encodeCps cps).length := by
  induction cps with
  | nil => simp [encodeCps]
  | cons c cs ih =>
    rw [encodeCps_cons, List.length_append]
    have := utf8_encode_cp_length_pos c
    simp only [List.length_cons]
    omega

theorem utf8_is_cont_iff (b : Nat) : utf8_is_cont b = true ↔ 0x80 ≤ b ∧ b < 0xC0 := by
  unfold utf8_is_cont
  simp

theorem utf8_encode_cp_tail_cont (cp : Nat) :
    ∀ b ∈ (utf8_encode_cp cp).tail, utf8_is_cont b = true := by
  intro b hb
  rw [utf8_is_cont_iff]
  unfold utf8_encode_cp at hb
  split_ifs at hb
  · simp at hb
  · simp at hb
    subst hb
    omega
  · simp at hb
    rcases hb with rfl | rfl <;> omega
  · simp at hb
    rcases hb with rfl | rfl | rfl <;> omega

theorem utf8_encode_cp_head_not_cont (cp : Nat) (h : cp < 0x110000) :
    ∀ c cs, utf8_encode_cp cp = c :: cs → utf8_is_cont c = false := by
  intro c cs hE
  have hiff : ∀ x : Nat, ¬(0x80 ≤ x ∧ x < 0xC0) → utf8_is_cont x = false := by
    intro x hx
    unfold utf8_is_cont
    simp only [Bool.and_eq_false_iff, decide_eq_false_iff_not]
    omega
  unfold utf8_encode_cp at hE
  split_ifs at hE with h1 h2 h3
  · cases hE
    exact hiff _ (by omega)
  · cases hE
    exact hiff _ (by omega)
  · cases hE
    exact hiff _ (by omega)
  · cases hE
    exact hiff _ (by omega)

/-- Decoding at a codepoint boundary of a well-formed buffer recovers the
codepoint and its encoded length. -/
theorem utf8_decode_encode (P : List Nat) (cp : Nat) (S : List Nat) (fin : Nat)
    (hv : cp < 0x110000)
    (hfin : P.length + (utf8_encode_cp cp).length ≤ fin) :
    utf8_decode (P ++ (utf8_encode_cp cp ++ S)) P.length fin
      = (cp, (utf8_encode_cp cp).length) := by
  have hread : ∀ k d, (P ++ (utf8_encode_cp cp ++ S)).getD (P.length + k) d
      = (utf8_encode_cp cp ++ S).getD k d := by
    intro k d
    rw [List.getD_append_right _ _ _ _ (by omega)]
    congr 1
    omega
  have hread0 : ∀ d, (P ++ (utf8_encode_cp cp ++ S)).getD P.length d
      = (utf8_encode_cp cp ++ S).getD 0 d := by
    intro d
    have := hread 0 d
    simpa using this
  by_cases h1 : cp < 0x80
  · rw [show utf8_encode_cp cp = [cp] from by unfold utf8_encode_cp; rw [if_pos h1]] at *
    unfold utf8_decode
    dsimp only
    rw [hread0]
    simp only [List.singleton_append, List.getD_cons_zero]
    rw [show utf8_byte_len cp = 1 from by unfold utf8_byte_len; rw [if_pos h1]]
    rw [if_neg (by simp), if_neg (by simp), if_neg (by simp)]
    rfl
  · by_cases h2 : cp < 0x800
    · rw [show utf8_encode_cp cp = [0xC0 + cp / 0x40, 0x80 + cp % 0x40] from by
        unfold utf8_encode_cp; rw [if_neg h1, if_pos h2]] at *
      unfold utf8_decode
      dsimp only
      rw [hread0, hread 1]
      simp only [List.cons_append, List.nil_append, List.getD_cons_zero,
        List.getD_cons_succ]
      rw [show utf8_byte_len (0xC0 + cp / 0x40) = 2 from by
        unfold utf8_byte_len
        rw [if_neg (by omega), if_neg (by omega), if_pos (by omega)]]
      rw [if_pos ⟨rfl, by simp at hfin; omega,
        (utf8_is_cont_iff _).mpr (by omega)⟩]
      simp only [Prod.mk.injEq]
      constructor
      · omega
      · rfl
    · by_cases h3 : cp < 0x10000
      · rw [show utf8_encode_cp cp
            = [0xE0 + cp / 0x1000, 0x80 + cp / 0x40 % 0x40, 0x80 + cp % 0x40] from by
          unfold utf8_encode_cp; rw [if_neg h1, if_neg h2, if_pos h3]] at *
        unfold utf8_decode
        dsimp only
        rw [hread0, hread 1, hread 2]
        simp only [List.cons_append, List.nil_append, List.getD_cons_zero,
          List.getD_cons_succ]
        rw [show utf8_byte_len (0xE0 + cp / 0x1000) = 3 from by
          unfold utf8_byte_len
          rw [if_neg (by omega), if_neg (by omega), if_neg (by omega), if_pos (by omega)]]
        rw [if_neg (by simp)]
        rw [if_pos ⟨rfl, by simp at hfin; omega,
          (utf8_is_cont_iff _).mpr (by omega), (utf8_is_cont_iff _).mpr (by omega)⟩]
        simp only [Prod.mk.injEq]
        constructor
        · omega
        · rfl
      · rw [show utf8_encode_cp cp
            = [0xF0 + cp / 0x40000, 0x80 + cp / 0x1000 % 0x40, 0x80 + cp / 0x40 % 0x40,
               0x80 + cp % 0x40] from by
          unfold utf8_encode_cp; rw [if_neg h1, if_neg h2, if_neg h3]] at *
        unfold utf8_decode
        dsimp only
        rw [hread0, hread 1, hread 2, hread 3]
        simp only [List.cons_append, List.nil_append, List.getD_cons_zero,
          List.getD_cons_succ]
        rw [show utf8_byte_len (0xF0 + cp / 0x40000) = 4 from by
          unfold utf8_byte_len
          rw [if_neg (by omega), if_neg (by omega), if_neg (by omega), if_neg (by omega),
            if_pos (by omega)]]
        rw [if_neg (by simp), if_neg (by simp)]
        rw [if_pos ⟨rfl, by simp at hfin; omega,
          (utf8_is_cont_iff _).mpr (by omega), (utf8_is_cont_iff _).mpr (by omega),
          (utf8_is_cont_iff _).mpr (by omega)⟩]
        simp only [Prod.mk.injEq]
        constructor
        · omega
        · rfl

theorem getD_append_length (A : List Nat) (x : Nat) (R : List Nat) (d : Nat) :
    (A ++ (x :: R)).getD A.length d = x := by
  rw [List.getD_append_right _ _ _ _ (le_refl _)]
  simp

theorem getD_drop_shift (l : List Nat) (n i d : Nat) :
    (l.drop n).getD i d = l.getD (n + i) d := by
  simp [List.getD_eq_getElem?_getD, List.getElem?_drop]

/-- Backing up over the continuation bytes of the last codepoint lands on
its leading byte. -/
theorem prev_cp_start_boundary (P : List Nat) (c : Nat) (cs : List Nat) :
    ∀ S : List Nat, utf8_is_cont c = false → (∀ b ∈ cs, utf8_is_cont b = true) →
    prev_cp_start (P ++ ((c :: cs) ++ S)) (P.length + (c :: cs).length) = P.length := by
  induction cs using List.reverseRecOn with
  | nil =>
    intro S hc _
    have hb : (P ++ ([c] ++ S)).getD P.length 0 = c := getD_append_length P c S 0
    show prev_cp_start (P ++ ([c] ++ S)) (P.length + 1) = P.length
    simp only [prev_cp_start, hb, hc]
    rfl
  | append_singleton cs' b ih =>
    intro S hc hcs
    have hb : utf8_is_cont b = true := hcs b (by simp)
    have hassoc : P ++ ((c :: (cs' ++ [b])) ++ S) = (P ++ (c :: cs')) ++ (b :: S) := by
      simp
    have hread : (P ++ ((c :: (cs' ++ [b])) ++ S)).getD ((P ++ (c :: cs')).length) 0
        = b := by
      rw [hassoc]
      exact getD_append_length _ b S 0
    have hidx : P.length + (c :: (cs' ++ [b])).length
        = (P ++ (c :: cs')).length + 1 := by
      simp
      omega
    rw [hidx]
    simp only [prev_cp_start, hread, hb]
    have hres := ih (b :: S) hc (fun x hx => hcs x (by simp [hx]))
    have hassoc2 : P ++ ((c :: cs') ++ (b :: S)) = P ++ ((c :: (cs' ++ [b])) ++ S) := by
      simp
    rw [hassoc2] at hres
    simp only [List.length_append] at hres ⊢
    simpa using hres

theorem utf8_encode_cp_ne_nil (cp : Nat) : utf8_encode_cp cp ≠ [] := by
  have := utf8_encode_cp_length_pos cp
  intro h
  rw [h] at this
  simp at this

/-- Backing up from a codepoint boundary of a well-formed buffer lands on
the previous codepoint's start. -/
theorem prev_cp_start_encode (P : List Nat) (cp : Nat) (S : List Nat)
    (hv : cp < 0x110000) :
    prev_cp_start (P ++ (utf8_encode_cp cp ++ S))
      (P.length + (utf8_encode_cp cp).length) = P.length := by
  match hE : utf8_encode_cp cp with
  | [] => exact absurd hE (utf8_encode_cp_ne_nil cp)
  | c :: cs =>
    have hc := utf8_encode_cp_head_not_cont cp hv c cs hE
    have hcs : ∀ b ∈ cs, utf8_is_cont b = true := by
      intro b hb
      apply utf8_encode_cp_tail_cont cp
      rw [hE]
      simpa using hb
    exact prev_cp_start_boundary P c cs S hc hcs

theorem utf8_decode_drop (buf : List Nat) (k off fin : Nat) :
    utf8_decode (buf.drop k) off fin = utf8_decode buf (k + off) (k + fin) := by
  unfold utf8_decode
  dsimp only
  rw [getD_drop_shift, getD_drop_shift, getD_drop_shift, getD_drop_shift]
  rw [show k + (off + 1) = k + off + 1 by omega, show k + (off + 2) = k + off + 2 by omega,
    show k + (off + 3) = k + off + 3 by omega]
  exact if_congr (by constructor <;> rintro ⟨a, b, c⟩ <;> exact ⟨a, by omega, c⟩) rfl
    (if_congr (by constructor <;> rintro ⟨a, b, c, d⟩ <;> exact ⟨a, by omega, c, d⟩) rfl
      (if_congr (by constructor <;> rintro ⟨a, b, c, d, e⟩ <;> exact ⟨a, by omega, c, d, e⟩)
        rfl rfl))

theorem nextGraphemeAux_drop (buf : List Nat) (k fin : Nat) :
    ∀ fuel off pz, nextGraphemeAux buf (k + fin) (k + off) pz fuel
      = k + nextGraphemeAux (buf.drop k) fin off pz fuel := by
  intro fuel
  induction fuel with
  | zero => intro off pz; simp [nextGraphemeAux]
  | succ n ih =>
    intro off pz
    simp only [nextGraphemeAux]
    by_cases h : off < fin
    · rw [if_pos (by omega), if_pos h, ← utf8_decode_drop]
      by_cases h1 : utf8_is_grapheme_extend (utf8_decode (buf.drop k) off fin).1 = true
      · rw [if_pos h1, if_pos h1]
        rw [show k + off + (utf8_decode (buf.drop k) off fin).2
            = k + (off + (utf8_decode (buf.drop k) off fin).2) by omega]
        exact ih _ _
      · rw [if_neg h1, if_neg h1]
        by_cases h2 : pz = true
        · rw [if_pos h2, if_pos h2]
          rw [show k + off + (utf8_decode (buf.drop k) off fin).2
              = k + (off + (utf8_decode (buf.drop k) off fin).2) by omega]
          exact ih _ _
        · rw [if_neg h2, if_neg h2]
    · rw [if_neg (by omega), if_neg h]

theorem utf8_decode_drop' (buf : List Nat) (k off fin : Nat) (hk : k ≤ fin) :
    utf8_decode buf (k + off) fin = utf8_decode (buf.drop k) off (fin - k) := by
  rw [utf8_decode_drop buf k off (fin - k), show k + (fin - k) = fin by omega]

theorem nextGraphemeAux_drop' (buf : List Nat) (k fin : Nat) (hk : k ≤ fin) :
    ∀ fuel off pz, nextGraphemeAux buf fin (k + off) pz fuel
      = k + nextGraphemeAux (buf.drop k) (fin - k) off pz fuel := by
  intro fuel off pz
  have h := nextGraphemeAux_drop buf k (fin - k) fuel off pz
  rwa [show k + (fin - k) = fin by omega] at h

theorem utf8_next_grapheme_len_drop (buf : List Nat) (k i fin : Nat) (hk : k ≤ fin) :
    utf8_next_grapheme_len buf (k + i) fin
      = utf8_next_grapheme_len (buf.drop k) i (fin - k) := by
  unfold utf8_next_grapheme_len
  by_cases h : i < fin - k
  · rw [if_pos (by omega), if_pos h]
    dsimp only
    rw [utf8_decode_drop' buf k i fin hk]
    rw [show k + i + (utf8_decode (buf.drop k) i (fin - k)).2
        = k + (i + (utf8_decode (buf.drop k) i (fin - k)).2) by omega]
    rw [nextGraphemeAux_drop' buf k fin hk]
    rw [show fin - (k + i) = fin - k - i by omega]
    omega
  · rw [if_neg (by omega), if_neg h]

/-- The forward extender loop consumes the tail of a grapheme cluster and
stops at the clipping edge. -/
theorem nextGraphemeAux_cluster_end :
    ∀ (tl A : List Nat) (S : List Nat) (fuel : Nat),
    ValidCps (A ++ tl) → A ≠ [] →
    clusterTailOK (A.getLastD 0) tl = true →
    tl.length < fuel →
    nextGraphemeAux (encodeCps (A ++ tl) ++ S) ((encodeCps (A ++ tl)).length)
      ((encodeCps A).length) (utf8_is_zwj (A.getLastD 0)) fuel
      = (encodeCps (A ++ tl)).length := by
  intro tl
  induction tl with
  | nil =>
    intro A S fuel _ _ _ hfuel
    cases fuel with
    | zero => exact absurd hfuel (by simp)
    | succ n =>
      simp only [List.append_nil, nextGraphemeAux]
      rw [if_neg (by omega)]
  | cons c tl' ih =>
    intro A S fuel hv hA hchain hfuel
    obtain ⟨n, rfl⟩ : ∃ n, fuel = n + 1 := ⟨fuel - 1, by omega⟩
    have hvc : c < 0x110000 := hv c (by simp)
    have hbdec : utf8_decode (encodeCps (A ++ c :: tl') ++ S)
        ((encodeCps A).length) ((encodeCps (A ++ c :: tl')).length)
        = (c, (utf8_encode_cp c).length) := by
      have hshape : encodeCps (A ++ c :: tl') ++ S
          = encodeCps A ++ (utf8_encode_cp c ++ (encodeCps tl' ++ S)) := by
        rw [show A ++ c :: tl' = A ++ ([c] ++ tl') by simp, encodeCps_append,
          encodeCps_append, encodeCps_cons]
        simp [encodeCps]
      rw [hshape]
      apply utf8_decode_encode _ _ _ _ hvc
      rw [show A ++ c :: tl' = A ++ ([c] ++ tl') by simp, encodeCps_append,
        encodeCps_append]
      simp only [List.length_append]
      have : (encodeCps [c]).length = (utf8_encode_cp c).length := by
        simp [encodeCps]
      omega
    have hoff : (encodeCps A).length < (encodeCps (A ++ c :: tl')).length := by
      rw [show A ++ c :: tl' = A ++ ([c] ++ tl') by simp, encodeCps_append]
      have h1 := encodeCps_length_pos ([c] ++ tl') (by simp)
      simp only [List.length_append]
      omega
    simp only [nextGraphemeAux]
    rw [if_pos hoff, hbdec]
    have hcond : (utf8_is_grapheme_extend c || utf8_is_zwj (A.getLastD 0)) = true
        ∧ clusterTailOK c tl' = true := by
      have := hchain
      unfold clusterTailOK at this
      simp only [Bool.and_eq_true] at this
      exact this
    have hnext : (encodeCps A).length + (utf8_encode_cp c).length
        = (encodeCps (A ++ [c])).length := by
      rw [encodeCps_append]
      simp [encodeCps]
    have happ : A ++ c :: tl' = (A ++ [c]) ++ tl' := by simp
    have hih := ih (A ++ [c]) S n
      (by rw [← happ]; exact hv)
      (by simp)
      (by rw [List.getLastD_concat]; exact hcond.2)
      (by simp at hfuel; omega)
    rw [List.getLastD_concat] at hih
    by_cases hext : utf8_is_grapheme_extend c = true
    · rw [if_pos hext]
      dsimp only
      rw [hnext]
      rw [happ]
      exact hih
    · have hzwj : utf8_is_zwj (A.getLastD 0) = true := by
        rcases Bool.or_eq_true _ _ |>.mp hcond.1 with h | h
        · exact absurd h hext
        · exact h
      have hzc : utf8_is_zwj c = false := by
        by_contra hc
        have : utf8_is_zwj c = true := by
          cases h : utf8_is_zwj c
          · exact absurd h hc
          · rfl
        have : utf8_is_grapheme_extend c = true := by
          unfold utf8_is_grapheme_extend
          rw [this]
          simp
        exact hext this
      rw [if_neg hext, if_pos hzwj]
      dsimp only
      rw [hnext, happ]
      rw [hzc] at hih
      exact hih

/-- The forward extender loop stops at a cluster boundary: the next
codepoint is not an extender and the cluster does not end in ZWJ. -/
theorem nextGraphemeAux_cluster_stop :
    ∀ (tl A : List Nat) (d : Nat) (S : List Nat) (fin fuel : Nat),
    ValidCps (A ++ tl) → d < 0x110000 → A ≠ [] →
    clusterTailOK (A.getLastD 0) tl = true →
    utf8_is_grapheme_extend d = false →
    utf8_is_zwj ((A ++ tl).getLastD 0) = false →
    (encodeCps (A ++ tl)).length + (utf8_encode_cp d).length ≤ fin →
    tl.length ≤ fuel →
    nextGraphemeAux (encodeCps (A ++ tl) ++ (utf8_encode_cp d ++ S)) fin
      ((encodeCps A).length) (utf8_is_zwj (A.getLastD 0)) fuel
      = (encodeCps (A ++ tl)).length := by
  intro tl
  induction tl with
  | nil =>
    intro A d S fin fuel hv hd hA _ hext hzwj hfin _
    cases fuel with
    | zero =>
      simp only [List.append_nil]
      rfl
    | succ n =>
      simp only [List.append_nil] at hfin hzwj ⊢
      have hdec : utf8_decode (encodeCps A ++ (utf8_encode_cp d ++ S))
          ((encodeCps A).length) fin = (d, (utf8_encode_cp d).length) :=
        utf8_decode_encode _ _ _ _ hd hfin
      simp only [nextGraphemeAux]
      have h1 := utf8_encode_cp_length_pos d
      rw [if_pos (by omega), hdec]
      dsimp only
      rw [if_neg (by rw [hext]; simp), if_neg (by rw [hzwj]; simp)]
  | cons c tl' ih =>
    intro A d S fin fuel hv hd hA hchain hext hzwj hfin hfuel
    obtain ⟨n, rfl⟩ : ∃ n, fuel = n + 1 := ⟨fuel - 1, by simp at hfuel; omega⟩
    have hvc : c < 0x110000 := hv c (by simp)
    have hlen1 : (encodeCps (A ++ c :: tl')).length
        = (encodeCps A).length + (utf8_encode_cp c).length + (encodeCps tl').length := by
      rw [show A ++ c :: tl' = A ++ ([c] ++ tl') by simp, encodeCps_append,
        encodeCps_append]
      simp only [List.length_append]
      have : (encodeCps [c]).length = (utf8_encode_cp c).length := by
        simp [encodeCps]
      omega
    have hshape : encodeCps (A ++ c :: tl') ++ (utf8_encode_cp d ++ S)
        = encodeCps A ++ (utf8_encode_cp c ++ (encodeCps tl' ++ (utf8_encode_cp d ++ S))) := by
      rw [show A ++ c :: tl' = A ++ ([c] ++ tl') by simp, encodeCps_append,
        encodeCps_append]
      simp [encodeCps]
    have hbdec : utf8_decode (encodeCps (A ++ c :: tl') ++ (utf8_encode_cp d ++ S))
        ((encodeCps A).length) fin = (c, (utf8_encode_cp c).length) := by
      rw [hshape]
      apply utf8_decode_encode _ _ _ _ hvc
      have := utf8_encode_cp_length_pos d
      omega
    have hoff : (encodeCps A).length < fin := by
      have h1 := utf8_encode_cp_length_pos c
      have h2 := utf8_encode_cp_length_pos d
      omega
    simp only [nextGraphemeAux]
    rw [if_pos hoff, hbdec]
    have hcond : (utf8_is_grapheme_extend c || utf8_is_zwj (A.getLastD 0)) = true
        ∧ clusterTailOK c tl' = true := by
      have := hchain
      unfold clusterTailOK at this
      simp only [Bool.and_eq_true] at this
      exact this
    have hnext : (encodeCps A).length + (utf8_encode_cp c).length
        = (encodeCps (A ++ [c])).length := by
      rw [encodeCps_append]
      simp [encodeCps]
    have happ : A ++ c :: tl' = (A ++ [c]) ++ tl' := by simp
    have hih := ih (A ++ [c]) d S fin n
      (by rw [← happ]; exact hv) hd (by simp)
      (by rw [List.getLastD_concat]; exact hcond.2)
      hext
      (by rw [← happ]; exact hzwj)
      (by rw [← happ]; exact hfin)
      (by simp at hfuel; omega)
    rw [List.getLastD_concat] at hih
    by_cases hext2 : utf8_is_grapheme_extend c = true
    · rw [if_pos hext2]
      dsimp only
      rw [hnext, happ]
      exact hih
    · have hzwj2 : utf8_is_zwj (A.getLastD 0) = true := by
        rcases Bool.or_eq_true _ _ |>.mp hcond.1 with h | h
        · exact absurd h hext2
        · exact h
      have hzc : utf8_is_zwj c = false := by
        cases h : utf8_is_zwj c
        · rfl
        · exfalso
          apply hext2
          unfold utf8_is_grapheme_extend
          rw [h]
          simp
      rw [if_neg hext2, if_pos hzwj2]
      dsimp only
      rw [hnext, happ]
      rw [hzc] at hih
      exact hih

/-! ## Walks depend only on the bytes below the clipping edge -/

theorem getD_take (l : List Nat) (n i d : Nat) (h : i < n) :
    (l.take n).getD i d = l.getD i d := by
  simp only [List.getD_eq_getElem?_getD, List.getElem?_take]
  rw [if_pos h]

theorem utf8_decode_congr (xs ys : List Nat) (off fin : Nat)
    (hoff : off < fin)
    (h : ∀ i, i < fin → xs.getD i 0 = ys.getD i 0) :
    utf8_decode xs off fin = utf8_decode ys off fin := by
  unfold utf8_decode
  dsimp only
  rw [h off hoff]
  by_cases h2 : off + 2 ≤ fin
  · rw [h (off+1) (by omega)]
    by_cases h3 : off + 3 ≤ fin
    · rw [h (off+2) (by omega)]
      by_cases h4 : off + 4 ≤ fin
      · rw [h (off+3) (by omega)]
      · simp only [eq_false h4, false_and, and_false, if_false]
    · simp only [eq_false h3, eq_false (show ¬off + 4 ≤ fin by omega),
        false_and, and_false, if_false]
  · simp only [eq_false h2, eq_false (show ¬off + 3 ≤ fin by omega),
      eq_false (show ¬off + 4 ≤ fin by omega), false_and, and_false, if_false]

theorem nextGraphemeAux_congr (xs ys : List Nat) (fin : Nat)
    (h : ∀ i, i < fin → xs.getD i 0 = ys.getD i 0) :
    ∀ fuel off pz, nextGraphemeAux xs fin off pz fuel
      = nextGraphemeAux ys fin off pz fuel := by
  intro fuel
  induction fuel with
  | zero => intro off pz; rfl
  | succ n ih =>
    intro off pz
    simp only [nextGraphemeAux]
    by_cases hoff : off < fin
    · rw [if_pos hoff, if_pos hoff]
      rw [utf8_decode_congr xs ys off fin hoff h]
      simp only [ih]
    · rw [if_neg hoff, if_neg hoff]

theorem utf8_next_grapheme_len_congr (xs ys : List Nat) (i fin : Nat)
    (h : ∀ k, k < fin → xs.getD k 0 = ys.getD k 0) :
    utf8_next_grapheme_len xs i fin = utf8_next_grapheme_len ys i fin := by
  unfold utf8_next_grapheme_len
  by_cases hi : i < fin
  · rw [if_pos hi, if_pos hi]
    dsimp only
    rw [utf8_decode_congr xs ys i fin hi h, nextGraphemeAux_congr xs ys fin h]
  · rw [if_neg hi, if_neg hi]

theorem graphemeCountAux_congr (xs ys : List Nat) (fin : Nat)
    (h : ∀ k, k < fin → xs.getD k 0 = ys.getD k 0) :
    ∀ fuel i, graphemeCountAux xs fin i fuel = graphemeCountAux ys fin i fuel := by
  intro fuel
  induction fuel with
  | zero => intro i; rfl
  | succ n ih =>
    intro i
    simp only [graphemeCountAux]
    by_cases hi : i < fin
    · rw [if_pos hi, if_pos hi, utf8_next_grapheme_len_congr xs ys i fin h, ih]
    · rw [if_neg hi, if_neg hi]

/-! ## Mask mode: one star per grapheme cluster (claim C9) -/

theorem maskStarsAux_replicate (buf : List Nat) (fin : Nat) :
    ∀ fuel i, maskStarsAux buf fin i fuel
      = List.replicate (graphemeCountAux buf fin i fuel) 42 := by
  intro fuel
  induction fuel with
  | zero => intro i; rfl
  | succ n ih =>
    intro i
    simp only [maskStarsAux, graphemeCountAux]
    by_cases hi : i < fin
    · rw [if_pos hi, if_pos hi, ih,
        show 1 + graphemeCountAux buf fin (i + utf8_next_grapheme_len buf i fin) n
          = graphemeCountAux buf fin (i + utf8_next_grapheme_len buf i fin) n + 1
          from Nat.add_comm _ _,
        List.replicate_succ]
    · rw [if_neg hi, if_neg hi]; rfl

theorem scrollLeftAux_len_le (pw cols : Nat) :
    ∀ fuel s, s.len ≤ s.buf.length →
    (scrollLeftAux pw cols s fuel).len ≤ (scrollLeftAux pw cols s fuel).buf.length := by
  intro fuel
  induction fuel with
  | zero => intro s h; exact h
  | succ n ih =>
    intro s h
    simp only [scrollLeftAux]
    by_cases hg : pw + s.poscol ≥ cols
    · rw [if_pos hg]
      exact ih _ (by
        show s.len - utf8_next_grapheme_len s.buf 0 s.len
          ≤ (s.buf.drop (utf8_next_grapheme_len s.buf 0 s.len)).length
        rw [List.length_drop]
        omega)
    · rw [if_neg hg]; exact h

theorem trimRightAux_buf_len (pw cols : Nat) :
    ∀ fuel s, (trimRightAux pw cols s fuel).buf = s.buf
      ∧ (trimRightAux pw cols s fuel).len ≤ s.len := by
  intro fuel
  induction fuel with
  | zero => intro s; exact ⟨rfl, le_refl _⟩
  | succ n ih =>
    intro s
    simp only [trimRightAux]
    by_cases hg : pw + s.lencol > cols
    · rw [if_pos hg]
      refine ⟨(ih _).1, le_trans (ih _).2 (Nat.sub_le _ _)⟩
    · rw [if_neg hg]; exact ⟨rfl, le_refl _⟩

theorem singleLineViewport_len_le (pw cols : Nat) (buf : List Nat) (pos : Nat) :
    (singleLineViewport pw cols buf buf.length pos).len
      ≤ (singleLineViewport pw cols buf buf.length pos).buf.length := by
  unfold singleLineViewport
  dsimp only
  have h1 := scrollLeftAux_len_le pw cols (buf.length + 1)
    { buf := buf, len := buf.length, pos := pos,
      poscol := utf8_str_width buf pos, lencol := utf8_str_width buf buf.length }
    (le_refl _)
  have h2 := trimRightAux_buf_len pw cols
    ((scrollLeftAux pw cols
      { buf := buf, len := buf.length, pos := pos,
        poscol := utf8_str_width buf pos, lencol := utf8_str_width buf buf.length }
      (buf.length + 1)).len + 1)
    (scrollLeftAux pw cols
      { buf := buf, len := buf.length, pos := pos,
        poscol := utf8_str_width buf pos, lencol := utf8_str_width buf buf.length }
      (buf.length + 1))
  rw [h2.1]
  exact le_trans h2.2 h1

theorem refreshSingleLine_maskSeg (cfg : EditCfg) (l : LinenoiseState) (wf : Bool)
    (hm : cfg.maskmode = true) :
    (refreshSingleLine cfg l wf).maskSeg
      = maskStarsAux
          (singleLineViewport (utf8_str_width l.prompt l.plen) l.cols l.buf l.len l.pos).buf
          (singleLineViewport (utf8_str_width l.prompt l.plen) l.cols l.buf l.len l.pos).len
          0
          ((singleLineViewport (utf8_str_width l.prompt l.plen) l.cols l.buf l.len l.pos).len
            + 1) := by
  unfold refreshSingleLine
  dsimp only
  rw [hm]
  simp

theorem refreshSingleLine_vbuf (cfg : EditCfg) (l : LinenoiseState) (wf : Bool) :
    (refreshSingleLine cfg l wf).vbuf
      = (singleLineViewport (utf8_str_width l.prompt l.plen) l.cols l.buf l.len l.pos).buf.take
          (singleLineViewport (utf8_str_width l.prompt l.plen) l.cols l.buf l.len l.pos).len := by
  unfold refreshSingleLine
  dsimp only

theorem refreshSingleLine_maskSeg_replicate (cfg : EditCfg) (l : LinenoiseState)
    (hm : cfg.maskmode = true) :
    (refreshSingleLine cfg l true).maskSeg
      = List.replicate
          (utf8_grapheme_count (refreshSingleLine cfg l true).vbuf
            (refreshSingleLine cfg l true).vbuf.length) 42 := by
  rw [refreshSingleLine_maskSeg cfg l true hm, refreshSingleLine_vbuf cfg l true]
  have hle := singleLineViewport_len_le (utf8_str_width l.prompt l.plen) l.cols l.buf l.pos
  have hlen : l.len = l.buf.length := rfl
  rw [hlen]
  set s := singleLineViewport (utf8_str_width l.prompt l.plen) l.cols l.buf l.buf.length l.pos
    with hs
  have htl : (s.buf.take s.len).length = s.len := by
    rw [List.length_take]
    omega
  rw [maskStarsAux_replicate]
  unfold utf8_grapheme_count
  rw [htl]
  rw [graphemeCountAux_congr s.buf (s.buf.take s.len) s.len
    (fun k hk => (getD_take s.buf s.len k 0 hk).symm)]

/-- **C9.**  With mask mode enabled the single-line renderer emits exactly
one `*` byte per grapheme cluster of the visible buffer slice and none of
the buffer's source bytes; two buffers whose visible slices have the same
cluster count yield identical masked segments; and the one-character
append fast path of linenoise_edit_insert writes a single `*`. -/
theorem claim_C9 (cfg : EditCfg) (l1 l2 : LinenoiseState) (c : List Nat)
    (hm : cfg.maskmode = true) :
    (∀ b ∈ (refreshSingleLine cfg l1 true).maskSeg, b = 42) ∧
    (refreshSingleLine cfg l1 true).maskSeg
      = List.replicate (utf8_grapheme_count (refreshSingleLine cfg l1 true).vbuf
          (refreshSingleLine cfg l1 true).vbuf.length) 42 ∧
    (utf8_grapheme_count (refreshSingleLine cfg l1 true).vbuf
          (refreshSingleLine cfg l1 true).vbuf.length
        = utf8_grapheme_count (refreshSingleLine cfg l2 true).vbuf
          (refreshSingleLine cfg l2 true).vbuf.length →
      (refreshSingleLine cfg l1 true).maskSeg = (refreshSingleLine cfg l2 true).maskSeg) ∧
    (l1.len = l1.pos → l1.len + c.length ≤ l1.buflen → cfg.mlmode = false →
      cfg.hintsCb = none →
      utf8_str_width l1.prompt l1.plen
        + utf8_str_width (l1.buf ++ c) (l1.buf ++ c).length < l1.cols →
      (linenoise_edit_insert cfg l1 c).2.1 = [42]) := by
  refine ⟨?_, refreshSingleLine_maskSeg_replicate cfg l1 hm, ?_, ?_⟩
  · intro b hb
    rw [refreshSingleLine_maskSeg_replicate cfg l1 hm] at hb
    exact List.eq_of_mem_replicate hb
  · intro hc
    rw [refreshSingleLine_maskSeg_replicate cfg l1 hm,
      refreshSingleLine_maskSeg_replicate cfg l2 hm, hc]
  · intro hpos hcap hml hh hw
    unfold linenoise_edit_insert
    dsimp only
    rw [if_pos hcap, if_pos hpos]
    have hcond : (!cfg.mlmode &&
        (decide (utf8_str_width l1.prompt l1.plen
          + utf8_str_width (l1.buf ++ c) (l1.buf ++ c).length < l1.cols)) &&
        cfg.hintsCb.isNone) = true := by
      rw [hml, hh]
      rw [List.length_append] at hw
      simp [hw]
    dsimp only [LinenoiseState.len, LinenoiseState.plen] at hcond ⊢
    rw [hcond]
    simp [hm]

/-- **C9, witness.** -/
theorem claim_C9_witness :
    (∀ b ∈ (refreshSingleLine ⟨true, false, none, none⟩
        ⟨false, 0, [97], 63, [], 1, 80, 0⟩ true).maskSeg, b = 42) ∧
    (refreshSingleLine ⟨true, false, none, none⟩
        ⟨false, 0, [97], 63, [], 1, 80, 0⟩ true).maskSeg
      = List.replicate (utf8_grapheme_count (refreshSingleLine ⟨true, false, none, none⟩
          ⟨false, 0, [97], 63, [], 1, 80, 0⟩ true).vbuf
          (refreshSingleLine ⟨true, false, none, none⟩
            ⟨false, 0, [97], 63, [], 1, 80, 0⟩ true).vbuf.length) 42 ∧
    (utf8_grapheme_count (refreshSingleLine ⟨true, false, none, none⟩
          ⟨false, 0, [97], 63, [], 1, 80, 0⟩ true).vbuf
          (refreshSingleLine ⟨true, false, none, none⟩
            ⟨false, 0, [97], 63, [], 1, 80, 0⟩ true).vbuf.length
        = utf8_grapheme_count (refreshSingleLine ⟨true, false, none, none⟩
            ⟨false, 0, [98, 99], 63, [], 2, 80, 0⟩ true).vbuf
          (refreshSingleLine ⟨true, false, none, none⟩
            ⟨false, 0, [98, 99], 63, [], 2, 80, 0⟩ true).vbuf.length →
      (refreshSingleLine ⟨true, false, none, none⟩
          ⟨false, 0, [97], 63, [], 1, 80, 0⟩ true).maskSeg
        = (refreshSingleLine ⟨true, false, none, none⟩
            ⟨false, 0, [98, 99], 63, [], 2, 80, 0⟩ true).maskSeg) ∧
    ((⟨false, 0, [97], 63, [], 1, 80, 0⟩ : LinenoiseState).len
        = (⟨false, 0, [97], 63, [], 1, 80, 0⟩ : LinenoiseState).pos →
      (⟨false, 0, [97], 63, [], 1, 80, 0⟩ : LinenoiseState).len + [98].length
        ≤ (⟨false, 0, [97], 63, [], 1, 80, 0⟩ : LinenoiseState).buflen →
      (⟨true, false, none, none⟩ : EditCfg).mlmode = false →
      (⟨true, false, none, none⟩ : EditCfg).hintsCb = none →
      utf8_str_width (⟨false, 0, [97], 63, [], 1, 80, 0⟩ : LinenoiseState).prompt
          (⟨false, 0, [97], 63, [], 1, 80, 0⟩ : LinenoiseState).plen
        + utf8_str_width ((⟨false, 0, [97], 63, [], 1, 80, 0⟩ : LinenoiseState).buf ++ [98])
          ((⟨false, 0, [97], 63, [], 1, 80, 0⟩ : LinenoiseState).buf ++ [98]).length
        < (⟨false, 0, [97], 63, [], 1, 80, 0⟩ : LinenoiseState).cols →
      (linenoise_edit_insert ⟨true, false, none, none⟩
        ⟨false, 0, [97], 63, [], 1, 80, 0⟩ [98]).2.1 = [42]) :=
  claim_C9 ⟨true, false, none, none⟩ ⟨false, 0, [97], 63, [], 1, 80, 0⟩
    ⟨false, 0, [98, 99], 63, [], 2, 80, 0⟩ [98] (by decide)

/-- **C4, counterexample.**  Buffer "a" followed by a ZWJ (U+200D), cursor
at the end: inserting the single-byte grapheme cluster "b" and then
backspacing does not remove just that cluster; the backward walk merges
across the ZWJ and deletes the whole buffer. -/
theorem claim_C4_counterexample :
    ((linenoise_edit_insert ⟨false, false, none, none⟩
        ⟨false, 0, [97, 226, 128, 141], 63, [], 4, 80, 0⟩ [98]).1).buf
      = [97, 226, 128, 141, 98] ∧
    (linenoiseEditBackspace
        ((linenoise_edit_insert ⟨false, false, none, none⟩
          ⟨false, 0, [97, 226, 128, 141], 63, [], 4, 80, 0⟩ [98]).1)).buf = [] ∧
    (linenoiseEditBackspace
        ((linenoise_edit_insert ⟨false, false, none, none⟩
          ⟨false, 0, [97, 226, 128, 141], 63, [], 4, 80, 0⟩ [98]).1)).pos = 0 := by
  decide

/-- **C8, counterexample.**  A prompt of display width 2 on a 1-column
terminal: after the scroll and trim loops the frame still violates
`pwidth + display_width(visible slice) ≤ cols` (the C loops at lines
843-859 cannot make progress once the viewport is empty and spin forever;
the model exits with the guard still true). -/
theorem claim_C8_counterexample :
    0 < (1 : Nat) ∧
    utf8_str_width [97, 98] 2
        + utf8_str_width
          (refreshSingleLine ⟨false, false, none, none⟩
            ⟨false, 0, [], 63, [97, 98], 0, 1, 0⟩ true).vbuf
          (refreshSingleLine ⟨false, false, none, none⟩
            ⟨false, 0, [], 63, [97, 98], 0, 1, 0⟩ true).vbuf.length
      > 1 := by
  decide

/-! ## The backward grapheme walk on encoded codepoints (towards C4, C8) -/

theorem eq_dropLast_append_getLastD (l : List Nat) (h : l ≠ []) :
    l = l.dropLast ++ [l.getLastD 0] := by
  conv_lhs => rw [← List.dropLast_append_getLast h]
  rw [List.getLastD_eq_getLast?, List.getLast?_eq_getLast l h]
  rfl

theorem reverse_eq_getLastD_cons (l : List Nat) (h : l ≠ []) :
    l.reverse = l.getLastD 0 :: l.dropLast.reverse := by
  conv_lhs => rw [eq_dropLast_append_getLastD l h]
  rw [List.reverse_append]
  rfl

theorem headD_reverse (l : List Nat) : l.reverse.headD 0 = l.getLastD 0 := by
  cases h : l with
  | nil => rfl
  | cons a as =>
    rw [← h, reverse_eq_getLastD_cons l (by rw [h]; exact List.cons_ne_nil a as)]
    rfl

theorem clusterTailOK_snoc (tl : List Nat) :
    ∀ (b c : Nat), clusterTailOK b (tl ++ [c])
      = (clusterTailOK b tl
          && (utf8_is_grapheme_extend c || utf8_is_zwj (tl.getLastD b))) := by
  induction tl with
  | nil =>
    intro b c
    show ((utf8_is_grapheme_extend c || utf8_is_zwj b) && clusterTailOK c []) = _
    simp [clusterTailOK]
  | cons t ts ih =>
    intro b c
    show ((utf8_is_grapheme_extend t || utf8_is_zwj b) && clusterTailOK t (ts ++ [c])) = _
    rw [ih t c, List.getLastD_cons]
    show _ = (((utf8_is_grapheme_extend t || utf8_is_zwj b) && clusterTailOK t ts) && _)
    rw [Bool.and_assoc]

theorem prevClusterLenCpsAux_pos (c : Nat) (ps : List Nat) :
    1 ≤ prevClusterLenCpsAux c ps := by
  cases ps with
  | nil => exact le_refl 1
  | cons p ps' =>
    unfold prevClusterLenCpsAux
    split_ifs <;> omega

/-- The backward codepoint walk counts exactly the cluster tail plus its
base when the chain conditions hold inside the cluster and fail (or run
out) at its base. -/
theorem prevClusterLenCpsAux_cluster :
    ∀ (tl : List Nat) (b : Nat) (A : List Nat),
    clusterTailOK b tl = true →
    (A = [] ∨ (utf8_is_grapheme_extend b || utf8_is_zwj (A.headD 0)) = false) →
    prevClusterLenCpsAux ((b :: tl).getLastD 0) ((b :: tl).dropLast.reverse ++ A)
      = tl.length + 1 := by
  intro tl
  induction tl using List.reverseRecOn with
  | nil =>
    intro b A _ hstop
    show prevClusterLenCpsAux b A = 1
    rcases hstop with h | h
    · subst h; rfl
    · cases A with
      | nil => rfl
      | cons a as =>
        have h' : (utf8_is_grapheme_extend b || utf8_is_zwj a) = false := h
        unfold prevClusterLenCpsAux
        rw [if_neg (by rw [h']; exact Bool.false_ne_true)]
  | append_singleton ts c ih =>
    intro b A hchain hstop
    rw [clusterTailOK_snoc] at hchain
    simp only [Bool.and_eq_true] at hchain
    have hgl : (b :: (ts ++ [c])).getLastD 0 = c := by
      rw [show b :: (ts ++ [c]) = (b :: ts) ++ [c] from rfl, List.getLastD_concat]
    have hdl : (b :: (ts ++ [c])).dropLast = b :: ts := by
      rw [show b :: (ts ++ [c]) = (b :: ts) ++ [c] from rfl, List.dropLast_concat]
    rw [hgl, hdl, reverse_eq_getLastD_cons (b :: ts) (List.cons_ne_nil b ts)]
    have hpz : utf8_is_zwj ((b :: ts).getLastD 0) = utf8_is_zwj (ts.getLastD b) := by
      rw [List.getLastD_cons]
    show prevClusterLenCpsAux c ((b :: ts).getLastD 0 :: ((b :: ts).dropLast.reverse ++ A))
      = (ts ++ [c]).length + 1
    show (if (utf8_is_grapheme_extend c || utf8_is_zwj ((b :: ts).getLastD 0)) = true
      then 1 + prevClusterLenCpsAux ((b :: ts).getLastD 0)
        ((b :: ts).dropLast.reverse ++ A)
      else 1) = (ts ++ [c]).length + 1
    rw [if_pos (by rw [hpz]; exact hchain.2)]
    have hih := ih b A hchain.1 hstop
    rw [hih]
    simp only [List.length_append, List.length_singleton]
    omega

/-- The byte-level backward cluster walk on an encoded codepoint sequence
computes the codepoint-level walk `prevClusterLenCpsAux`. -/
theorem prevClusterAux_encoded :
    ∀ (P : List Nat) (c : Nat) (S : List Nat) (fin fuel : Nat),
    ValidCps (P ++ [c]) → P.length < fuel →
    (encodeCps (P ++ [c])).length ≤ fin →
    prevClusterAux (encodeCps (P ++ [c]) ++ S) fin ((encodeCps P).length) fuel
      = (encodeCps (P.take (P.length + 1 - prevClusterLenCpsAux c P.reverse))).length := by
  intro P
  induction P using List.reverseRecOn with
  | nil =>
    intro c S fin fuel _ hfuel _
    obtain ⟨n, rfl⟩ : ∃ n, fuel = n + 1 := ⟨fuel - 1, by omega⟩
    simp [prevClusterAux, prevClusterLenCpsAux, encodeCps]
  | append_singleton Q p ih =>
    intro c S fin fuel hv hfuel hfin
    obtain ⟨n, rfl⟩ : ∃ n, fuel = n + 1 := ⟨fuel - 1, by omega⟩
    have hvp : p < 0x110000 := hv p (by simp)
    have hvc : c < 0x110000 := hv c (by simp)
    have hsh1 : encodeCps ((Q ++ [p]) ++ [c]) ++ S
        = encodeCps (Q ++ [p]) ++ (utf8_encode_cp c ++ S) := by
      rw [encodeCps_append]
      simp [encodeCps]
    have hsh2 : encodeCps (Q ++ [p]) ++ (utf8_encode_cp c ++ S)
        = encodeCps Q ++ (utf8_encode_cp p ++ (utf8_encode_cp c ++ S)) := by
      rw [encodeCps_append]
      simp [encodeCps]
    have hst : (encodeCps (Q ++ [p])).length
        = (encodeCps Q).length + (utf8_encode_cp p).length := by
      rw [encodeCps_append]
      simp [encodeCps]
    have hlc : (encodeCps ((Q ++ [p]) ++ [c])).length
        = (encodeCps (Q ++ [p])).length + (utf8_encode_cp c).length := by
      rw [encodeCps_append (Q ++ [p]) [c]]
      simp only [List.length_append]
      have : (encodeCps [c]).length = (utf8_encode_cp c).length := by
        simp [encodeCps]
      omega
    have hstart0 : (encodeCps (Q ++ [p])).length ≠ 0 := by
      have := encodeCps_length_pos (Q ++ [p]) (by simp)
      omega
    simp only [prevClusterAux]
    rw [if_neg hstart0]
    have hps : prev_cp_start (encodeCps ((Q ++ [p]) ++ [c]) ++ S)
        ((encodeCps (Q ++ [p])).length) = (encodeCps Q).length := by
      rw [hsh1, hsh2, hst]
      exact prev_cp_start_encode (encodeCps Q) p (utf8_encode_cp c ++ S) hvp
    have hcur : utf8_decode (encodeCps ((Q ++ [p]) ++ [c]) ++ S)
        ((encodeCps (Q ++ [p])).length) fin = (c, (utf8_encode_cp c).length) := by
      rw [hsh1]
      exact utf8_decode_encode _ _ _ _ hvc (by omega)
    have hprev : utf8_decode (encodeCps ((Q ++ [p]) ++ [c]) ++ S)
        ((encodeCps Q).length) fin = (p, (utf8_encode_cp p).length) := by
      rw [hsh1, hsh2]
      have h1 := utf8_encode_cp_length_pos c
      exact utf8_decode_encode _ _ _ _ hvp (by omega)
    rw [hps, hcur, hprev]
    dsimp only
    have hrev : (Q ++ [p]).reverse = p :: Q.reverse := by simp
    by_cases hcond : (utf8_is_grapheme_extend c || utf8_is_zwj p) = true
    · rw [if_pos hcond]
      have hih := ih p (utf8_encode_cp c ++ S) fin n
        (fun x hx => hv x (List.mem_append_left [c] hx))
        (by simp only [List.length_append, List.length_singleton] at hfuel; omega)
        (by omega)
      rw [hsh1, hih, hrev]
      have haux : prevClusterLenCpsAux c (p :: Q.reverse)
          = 1 + prevClusterLenCpsAux p Q.reverse := by
        show (if (utf8_is_grapheme_extend c || utf8_is_zwj p) = true
          then 1 + prevClusterLenCpsAux p Q.reverse else 1) = _
        rw [if_pos hcond]
      rw [haux]
      have hL := prevClusterLenCpsAux_pos p Q.reverse
      have harith : (Q ++ [p]).length + 1 - (1 + prevClusterLenCpsAux p Q.reverse)
          = Q.length + 1 - prevClusterLenCpsAux p Q.reverse := by
        simp only [List.length_append, List.length_singleton]
        omega
      rw [harith]
      have htake : (Q ++ [p]).take (Q.length + 1 - prevClusterLenCpsAux p Q.reverse)
          = Q.take (Q.length + 1 - prevClusterLenCpsAux p Q.reverse) := by
        rw [List.take_append_eq_append_take]
        rw [show Q.length + 1 - prevClusterLenCpsAux p Q.reverse - Q.length = 0 by omega]
        simp
      rw [htake]
    · rw [if_neg hcond]
      have hcond' : (utf8_is_grapheme_extend c || utf8_is_zwj p) = false := by
        cases h : (utf8_is_grapheme_extend c || utf8_is_zwj p)
        · rfl
        · exact absurd h hcond
      rw [hrev]
      have haux : prevClusterLenCpsAux c (p :: Q.reverse) = 1 := by
        show (if (utf8_is_grapheme_extend c || utf8_is_zwj p) = true
          then 1 + prevClusterLenCpsAux p Q.reverse else 1) = 1
        rw [if_neg (by rw [hcond']; exact Bool.false_ne_true)]
      rw [haux, Nat.add_sub_cancel, List.take_length]

/-- `prev_grapheme_len` at the end of an encoded codepoint sequence is the
encoded length of the sequence's last backward cluster. -/
theorem utf8_prev_grapheme_len_encoded (P : List Nat) (c : Nat) (S : List Nat)
    (hv : ValidCps (P ++ [c])) :
    utf8_prev_grapheme_len (encodeCps (P ++ [c]) ++ S) ((encodeCps (P ++ [c])).length)
      = (encodeCps ((P ++ [c]).drop
          (P.length + 1 - prevClusterLenCpsAux c P.reverse))).length := by
  have hvc : c < 0x110000 := hv c (by simp)
  have hpos : ¬ (encodeCps (P ++ [c])).length = 0 := by
    have := encodeCps_length_pos (P ++ [c]) (by simp)
    omega
  unfold utf8_prev_grapheme_len
  rw [if_neg hpos]
  have hsh : encodeCps (P ++ [c]) ++ S = encodeCps P ++ (utf8_encode_cp c ++ S) := by
    rw [encodeCps_append]
    simp [encodeCps]
  have hlen : (encodeCps (P ++ [c])).length
      = (encodeCps P).length + (utf8_encode_cp c).length := by
    rw [encodeCps_append]
    simp [encodeCps]
  have hps : prev_cp_start (encodeCps (P ++ [c]) ++ S) ((encodeCps (P ++ [c])).length)
      = (encodeCps P).length := by
    rw [hsh, hlen]
    exact prev_cp_start_encode (encodeCps P) c S hvc
  rw [hps]
  have hcount := encodeCps_count_le (P ++ [c])
  simp only [List.length_append, List.length_singleton] at hcount
  have hmain := prevClusterAux_encoded P c S ((encodeCps (P ++ [c])).length)
      ((encodeCps (P ++ [c])).length) hv (by omega) (le_refl _)
  rw [hmain]
  have hL := prevClusterLenCpsAux_pos c P.reverse
  have htake : (P ++ [c]).take (P.length + 1 - prevClusterLenCpsAux c P.reverse)
      = P.take (P.length + 1 - prevClusterLenCpsAux c P.reverse) := by
    rw [List.take_append_eq_append_take]
    rw [show P.length + 1 - prevClusterLenCpsAux c P.reverse - P.length = 0 by omega]
    simp
  have hsplit : (encodeCps (P ++ [c])).length
      = (encodeCps ((P ++ [c]).take (P.length + 1 - prevClusterLenCpsAux c P.reverse))).length
        + (encodeCps ((P ++ [c]).drop
            (P.length + 1 - prevClusterLenCpsAux c P.reverse))).length := by
    conv_lhs => rw [← List.take_append_drop
      (P.length + 1 - prevClusterLenCpsAux c P.reverse) (P ++ [c])]
    rw [encodeCps_append, List.length_append]
  rw [← htake]
  omega

/-- `prev_grapheme_len` at the end of `A ++ g` for a grapheme cluster `g`
that does not merge leftward is the encoded length of `g`. -/
theorem utf8_prev_grapheme_len_cluster (A : List Nat) (b : Nat) (tl : List Nat)
    (S : List Nat)
    (hv : ValidCps (A ++ (b :: tl)))
    (hchain : clusterTailOK b tl = true)
    (hbase : utf8_is_grapheme_extend b = false)
    (hnz : utf8_is_zwj (A.getLastD 0) = false) :
    utf8_prev_grapheme_len (encodeCps (A ++ (b :: tl)) ++ S)
      ((encodeCps (A ++ (b :: tl))).length)
      = (encodeCps (b :: tl)).length := by
  have hgne : (b :: tl) ≠ [] := List.cons_ne_nil b tl
  have hsplitg : A ++ (b :: tl)
      = (A ++ (b :: tl).dropLast) ++ [(b :: tl).getLastD 0] := by
    conv_lhs => rw [eq_dropLast_append_getLastD (b :: tl) hgne]
    rw [List.append_assoc]
  have hv' : ValidCps ((A ++ (b :: tl).dropLast) ++ [(b :: tl).getLastD 0]) := by
    rw [← hsplitg]
    exact hv
  have hmain := utf8_prev_grapheme_len_encoded (A ++ (b :: tl).dropLast)
    ((b :: tl).getLastD 0) S hv'
  rw [← hsplitg] at hmain
  rw [hmain]
  have hrev : (A ++ (b :: tl).dropLast).reverse
      = (b :: tl).dropLast.reverse ++ A.reverse := List.reverse_append _ _
  have hstop : A.reverse = [] ∨
      (utf8_is_grapheme_extend b || utf8_is_zwj (A.reverse.headD 0)) = false := by
    right
    rw [headD_reverse, hbase, hnz]
    rfl
  have hcnt := prevClusterLenCpsAux_cluster tl b A.reverse hchain hstop
  rw [hrev, hcnt]
  have hlen : (A ++ (b :: tl).dropLast).length = A.length + tl.length := by
    simp only [List.length_append, List.length_dropLast, List.length_cons]
    omega
  rw [hlen]
  rw [show A.length + tl.length + 1 - (tl.length + 1) = A.length by omega]
  rw [List.drop_left]

/-- **C4 (amended).**  For a buffer that is the encoding of well-formed
codepoints with the cursor on a cluster boundary, inserting one complete
grapheme cluster `g` whose base is not an extender, when the pre-cursor
text does not end in a ZWJ and the bytes fit, grows `len` by exactly the
cluster's byte length, and a following backspace restores the entire
pre-insert state. -/
theorem claim_C4 (cfg : EditCfg) (l : LinenoiseState) (P Q : List Nat)
    (b : Nat) (tl : List Nat)
    (hbuf : l.buf = encodeCps P ++ encodeCps Q)
    (hpos : l.pos = (encodeCps P).length)
    (hv : ValidCps (P ++ (b :: tl)))
    (hchain : clusterTailOK b tl = true)
    (hbase : utf8_is_grapheme_extend b = false)
    (hnz : utf8_is_zwj (P.getLastD 0) = false)
    (hcap : l.len + (encodeCps (b :: tl)).length ≤ l.buflen) :
    (linenoise_edit_insert cfg l (encodeCps (b :: tl))).1.len
        = l.len + (encodeCps (b :: tl)).length ∧
    linenoiseEditBackspace (linenoise_edit_insert cfg l (encodeCps (b :: tl))).1 = l := by
  have hglen := encodeCps_length_pos (b :: tl) (List.cons_ne_nil b tl)
  have hl' : (linenoise_edit_insert cfg l (encodeCps (b :: tl))).1
      = { l with buf := encodeCps P ++ (encodeCps (b :: tl) ++ encodeCps Q),
                 pos := l.pos + (encodeCps (b :: tl)).length } := by
    unfold linenoise_edit_insert
    dsimp only
    rw [if_pos hcap]
    by_cases hend : l.len = l.pos
    · rw [if_pos hend]
      have hQnil : encodeCps Q = [] := by
        have : l.buf.length = l.pos := hend
        rw [hbuf, List.length_append, hpos] at this
        exact List.length_eq_zero.mp (by omega)
      rw [apply_ite Prod.fst, ite_self]
      rw [hbuf, hQnil]
      simp
    · rw [if_neg hend]
      have htk : l.buf.take l.pos = encodeCps P := by
        rw [hbuf, hpos]
        exact List.take_left' rfl
      have hdr : l.buf.drop l.pos = encodeCps Q := by
        rw [hbuf, hpos]
        exact List.drop_left' rfl
      rw [htk, hdr]
      simp
  constructor
  · rw [hl']
    show (encodeCps P ++ (encodeCps (b :: tl) ++ encodeCps Q)).length
      = l.buf.length + (encodeCps (b :: tl)).length
    rw [hbuf]
    simp only [List.length_append]
    omega
  · rw [hl']
    unfold linenoiseEditBackspace
    rw [if_pos ?grd]
    case grd =>
      constructor
      · show 0 < l.pos + (encodeCps (b :: tl)).length
        omega
      · show 0 < (encodeCps P ++ (encodeCps (b :: tl) ++ encodeCps Q)).length
        simp only [List.length_append]
        omega
    dsimp only
    have hbufeq : encodeCps P ++ (encodeCps (b :: tl) ++ encodeCps Q)
        = encodeCps (P ++ (b :: tl)) ++ encodeCps Q := by
      rw [encodeCps_append, List.append_assoc]
    have hposeq : l.pos + (encodeCps (b :: tl)).length
        = (encodeCps (P ++ (b :: tl))).length := by
      rw [hpos, encodeCps_append, List.length_append]
    have hclen : utf8_prev_grapheme_len
        (encodeCps P ++ (encodeCps (b :: tl) ++ encodeCps Q))
        (l.pos + (encodeCps (b :: tl)).length)
        = (encodeCps (b :: tl)).length := by
      rw [hbufeq, hposeq]
      exact utf8_prev_grapheme_len_cluster P b tl (encodeCps Q) hv hchain hbase hnz
    rw [hclen]
    have hptk : (encodeCps P ++ (encodeCps (b :: tl) ++ encodeCps Q)).take
        (l.pos + (encodeCps (b :: tl)).length - (encodeCps (b :: tl)).length)
        = encodeCps P := by
      rw [show l.pos + (encodeCps (b :: tl)).length - (encodeCps (b :: tl)).length
        = l.pos by omega, hpos]
      exact List.take_left' rfl
    have hpdr : (encodeCps P ++ (encodeCps (b :: tl) ++ encodeCps Q)).drop
        (l.pos + (encodeCps (b :: tl)).length)
        = encodeCps Q := by
      rw [hbufeq, hposeq]
      exact List.drop_left' rfl
    rw [hptk, hpdr, ← hbuf]
    rw [show l.pos + (encodeCps (b :: tl)).length - (encodeCps (b :: tl)).length
      = l.pos by omega]

/-- **C4, witness.** -/
theorem claim_C4_witness :
    (linenoise_edit_insert ⟨false, false, none, none⟩
        ⟨false, 0, [97], 63, [], 1, 80, 0⟩ (encodeCps [98])).1.len
        = (⟨false, 0, [97], 63, [], 1, 80, 0⟩ : LinenoiseState).len
          + (encodeCps [98]).length ∧
    linenoiseEditBackspace (linenoise_edit_insert ⟨false, false, none, none⟩
        ⟨false, 0, [97], 63, [], 1, 80, 0⟩ (encodeCps [98])).1
      = ⟨false, 0, [97], 63, [], 1, 80, 0⟩ :=
  claim_C4 ⟨false, false, none, none⟩ ⟨false, 0, [97], 63, [], 1, 80, 0⟩
    [97] [] 98 []
    (by decide) (by decide) (by unfold ValidCps; decide) (by decide) (by decide)
    (by decide) (by decide)

/-! ## The forward grapheme walk on encoded codepoints (towards C8) -/

theorem utf8_next_grapheme_len_cluster_end (b : Nat) (gtl : List Nat) (S : List Nat)
    (hv : ValidCps (b :: gtl))
    (hchain : clusterTailOK b gtl = true) :
    utf8_next_grapheme_len (encodeCps (b :: gtl) ++ S) 0 ((encodeCps (b :: gtl)).length)
      = (encodeCps (b :: gtl)).length := by
  have hvb : b < 0x110000 := hv b (by simp)
  have hlen : (encodeCps (b :: gtl)).length
      = (utf8_encode_cp b).length + (encodeCps gtl).length := by
    rw [encodeCps_cons, List.length_append]
  have hbl := utf8_encode_cp_length_pos b
  have hcnt := encodeCps_count_le gtl
  unfold utf8_next_grapheme_len
  rw [if_pos (by omega)]
  have hdec : utf8_decode (encodeCps (b :: gtl) ++ S) 0 ((encodeCps (b :: gtl)).length)
      = (b, (utf8_encode_cp b).length) := by
    have hsh : encodeCps (b :: gtl) ++ S
        = ([] : List Nat) ++ (utf8_encode_cp b ++ (encodeCps gtl ++ S)) := by
      rw [encodeCps_cons]
      simp
    rw [hsh]
    exact utf8_decode_encode [] b (encodeCps gtl ++ S) _ hvb
      (by simp only [List.length_nil, Nat.zero_add]; omega)
  rw [hdec]
  dsimp only
  have hend := nextGraphemeAux_cluster_end gtl [b] S
    ((encodeCps (b :: gtl)).length - 0)
    (by exact hv) (by exact List.cons_ne_nil b []) (by exact hchain)
    (by rw [Nat.sub_zero]; omega)
  rw [show ([b] ++ gtl) = b :: gtl from rfl] at hend
  rw [show (encodeCps [b]).length = (utf8_encode_cp b).length by simp [encodeCps]] at hend
  rw [show ([b] : List Nat).getLastD 0 = b from rfl] at hend
  rw [show (0 : Nat) + (utf8_encode_cp b).length = (utf8_encode_cp b).length by omega]
  rw [hend, Nat.sub_zero]

theorem utf8_next_grapheme_len_cluster_stop (b : Nat) (gtl : List Nat) (d : Nat)
    (S : List Nat) (fin : Nat)
    (hv : ValidCps (b :: gtl)) (hd : d < 0x110000)
    (hchain : clusterTailOK b gtl = true)
    (hext : utf8_is_grapheme_extend d = false)
    (hzwj : utf8_is_zwj ((b :: gtl).getLastD 0) = false)
    (hfin : (encodeCps (b :: gtl)).length + (utf8_encode_cp d).length ≤ fin) :
    utf8_next_grapheme_len (encodeCps (b :: gtl) ++ (utf8_encode_cp d ++ S)) 0 fin
      = (encodeCps (b :: gtl)).length := by
  have hvb : b < 0x110000 := hv b (by simp)
  have hlen : (encodeCps (b :: gtl)).length
      = (utf8_encode_cp b).length + (encodeCps gtl).length := by
    rw [encodeCps_cons, List.length_append]
  have hbl := utf8_encode_cp_length_pos b
  have hdl := utf8_encode_cp_length_pos d
  have hcnt := encodeCps_count_le gtl
  unfold utf8_next_grapheme_len
  rw [if_pos (by omega)]
  have hdec : utf8_decode (encodeCps (b :: gtl) ++ (utf8_encode_cp d ++ S)) 0 fin
      = (b, (utf8_encode_cp b).length) := by
    have hsh : encodeCps (b :: gtl) ++ (utf8_encode_cp d ++ S)
        = ([] : List Nat)
          ++ (utf8_encode_cp b ++ (encodeCps gtl ++ (utf8_encode_cp d ++ S))) := by
      rw [encodeCps_cons]
      simp
    rw [hsh]
    exact utf8_decode_encode [] b (encodeCps gtl ++ (utf8_encode_cp d ++ S)) _ hvb
      (by simp only [List.length_nil, Nat.zero_add]; omega)
  rw [hdec]
  dsimp only
  have hstop := nextGraphemeAux_cluster_stop gtl [b] d S fin (fin - 0)
    (by exact hv) hd (by exact List.cons_ne_nil b []) (by exact hchain)
    hext (by exact hzwj) (by exact hfin)
    (by rw [Nat.sub_zero]; omega)
  rw [show ([b] ++ gtl) = b :: gtl from rfl] at hstop
  rw [show (encodeCps [b]).length = (utf8_encode_cp b).length by simp [encodeCps]] at hstop
  rw [show ([b] : List Nat).getLastD 0 = b from rfl] at hstop
  rw [show (0 : Nat) + (utf8_encode_cp b).length = (utf8_encode_cp b).length by omega]
  rw [hstop, Nat.sub_zero]

theorem utf8_single_char_width_encode (b : Nat) (rest : List Nat) (clen : Nat)
    (hvb : b < 0x110000) (hcl : (utf8_encode_cp b).length ≤ clen) :
    utf8_single_char_width (utf8_encode_cp b ++ rest) clen = utf8_codepoint_width b := by
  unfold utf8_single_char_width
  have hdec : utf8_decode (utf8_encode_cp b ++ rest) 0 clen
      = (b, (utf8_encode_cp b).length) := by
    have hsh : utf8_encode_cp b ++ rest
        = ([] : List Nat) ++ (utf8_encode_cp b ++ rest) := by simp
    rw [hsh]
    exact utf8_decode_encode [] b rest clen hvb
      (by simp only [List.length_nil, Nat.zero_add]; omega)
  rw [hdec]

theorem strWidthAux_drop (buf : List Nat) (k fin : Nat) (hk : k ≤ fin) :
    ∀ fuel i, strWidthAux buf fin (k + i) fuel
      = strWidthAux (buf.drop k) (fin - k) i fuel := by
  intro fuel
  induction fuel with
  | zero => intro i; rfl
  | succ n ih =>
    intro i
    simp only [strWidthAux]
    by_cases hi : i < fin - k
    · rw [if_pos (by omega), if_pos hi]
      rw [utf8_next_grapheme_len_drop buf k i fin hk]
      rw [show buf.drop (k + i) = (buf.drop k).drop i by rw [List.drop_drop, Nat.add_comm]]
      rw [Nat.add_assoc]
      rw [ih (i + utf8_next_grapheme_len (buf.drop k) i (fin - k))]
    · rw [if_neg (by omega), if_neg hi]

theorem flatten_length_ge (cls : List (List Nat))
    (h : cls.all clusterShape = true) : cls.length ≤ cls.flatten.length := by
  induction cls with
  | nil => simp
  | cons g cls' ih =>
    simp only [List.all_cons, Bool.and_eq_true] at h
    have hg : g ≠ [] := by
      intro hnil
      rw [hnil] at h
      exact absurd h.1 (by simp [clusterShape])
    have hg1 : 1 ≤ g.length := by
      cases g with
      | nil => exact absurd rfl hg
      | cons x xs => simp
    have := ih h.2
    simp only [List.flatten_cons, List.length_cons, List.length_append]
    omega

/-- Forward width walk over an encoded cluster segmentation: the displayed
width is the sum of the base-codepoint widths of the clusters. -/
theorem strWidthAux_clusters :
    ∀ (cls : List (List Nat)) (S : List Nat) (fuel : Nat),
    ValidCps cls.flatten → SegOK cls = true →
    cls.length < fuel →
    strWidthAux (encodeCps cls.flatten ++ S) ((encodeCps cls.flatten).length) 0 fuel
      = widthCps cls := by
  intro cls
  induction cls with
  | nil =>
    intro S fuel _ _ hfuel
    obtain ⟨n, rfl⟩ : ∃ n, fuel = n + 1 := ⟨fuel - 1, by omega⟩
    simp [strWidthAux, widthCps, encodeCps]
  | cons g cls' ih =>
    intro S fuel hv hseg hfuel
    obtain ⟨n, rfl⟩ : ∃ n, fuel = n + 1 := ⟨fuel - 1, by omega⟩
    have hsegparts : (g :: cls').all clusterShape = true
        ∧ segBoundariesOK (g :: cls') = true := by
      unfold SegOK at hseg
      simp only [Bool.and_eq_true] at hseg
      exact hseg
    have hgshape : clusterShape g = true := by
      have := hsegparts.1
      simp only [List.all_cons, Bool.and_eq_true] at this
      exact this.1
    obtain ⟨b, gtl, rfl⟩ : ∃ b gtl, g = b :: gtl := by
      cases g with
      | nil => exact absurd hgshape (by simp [clusterShape])
      | cons x xs => exact ⟨x, xs, rfl⟩
    have hchain : clusterTailOK b gtl = true := hgshape
    have hvg : ValidCps (b :: gtl) := by
      intro x hx
      exact hv x (by simp only [List.flatten_cons, List.mem_append]; exact Or.inl hx)
    have hvb : b < 0x110000 := hvg b (by simp)
    have hseg' : SegOK cls' = true := by
      unfold SegOK
      have hall : cls'.all clusterShape = true := by
        have := hsegparts.1
        simp only [List.all_cons, Bool.and_eq_true] at this
        exact this.2
      have hbnd : segBoundariesOK cls' = true := by
        have := hsegparts.2
        cases cls' with
        | nil => rfl
        | cons g2 rest =>
          unfold segBoundariesOK at this
          simp only [Bool.and_eq_true] at this
          exact this.2
      rw [hall, hbnd]
      rfl
    have hflat : (b :: gtl) :: cls' = [b :: gtl] ++ cls' := rfl
    have hsplit : encodeCps ((b :: gtl) :: cls').flatten
        = encodeCps (b :: gtl) ++ encodeCps cls'.flatten := by
      rw [show ((b :: gtl) :: cls').flatten = (b :: gtl) ++ cls'.flatten from rfl,
        encodeCps_append]
    have hflen : (encodeCps ((b :: gtl) :: cls').flatten).length
        = (encodeCps (b :: gtl)).length + (encodeCps cls'.flatten).length := by
      rw [hsplit, List.length_append]
    have hg1 := encodeCps_length_pos (b :: gtl) (List.cons_ne_nil b gtl)
    simp only [strWidthAux]
    rw [if_pos (by omega)]
    have hclen : utf8_next_grapheme_len
        (encodeCps ((b :: gtl) :: cls').flatten ++ S) 0
        ((encodeCps ((b :: gtl) :: cls').flatten).length)
        = (encodeCps (b :: gtl)).length := by
      cases cls' with
      | nil =>
        have h0 : encodeCps (([] : List (List Nat)).flatten) = [] := rfl
        rw [hsplit, h0, List.append_nil]
        exact utf8_next_grapheme_len_cluster_end b gtl S hvg hchain
      | cons g2 rest =>
        obtain ⟨d, g2tl, rfl⟩ : ∃ d g2tl, g2 = d :: g2tl := by
          have : clusterShape g2 = true := by
            have := hsegparts.1
            simp only [List.all_cons, Bool.and_eq_true] at this
            exact this.2.1
          cases g2 with
          | nil => exact absurd this (by simp [clusterShape])
          | cons x xs => exact ⟨x, xs, rfl⟩
        have hvd : d < 0x110000 := by
          apply hv d
          simp
        have hbd : utf8_is_zwj ((b :: gtl).getLastD 0) = false
            ∧ utf8_is_grapheme_extend d = false := by
          have := hsegparts.2
          unfold segBoundariesOK at this
          simp only [Bool.and_eq_true] at this
          constructor
          · have h1 := this.1.1
            cases h : utf8_is_zwj ((b :: gtl).getLastD 0)
            · rfl
            · rw [h] at h1; exact absurd h1 (by simp)
          · have h2 := this.1.2
            cases h : utf8_is_grapheme_extend ((d :: g2tl).headD 0)
            · exact h
            · rw [h] at h2; exact absurd h2 (by simp)
        have hsh2 : encodeCps ((b :: gtl) :: (d :: g2tl) :: rest).flatten ++ S
            = encodeCps (b :: gtl)
              ++ (utf8_encode_cp d ++ (encodeCps (g2tl ++ rest.flatten) ++ S)) := by
          rw [show ((b :: gtl) :: (d :: g2tl) :: rest).flatten
            = (b :: gtl) ++ (d :: (g2tl ++ rest.flatten)) by simp, encodeCps_append,
            encodeCps_cons]
          simp only [List.append_assoc]
          rw [encodeCps_cons, List.append_assoc]
        have hfin2 : (encodeCps (b :: gtl)).length + (utf8_encode_cp d).length
            ≤ (encodeCps ((b :: gtl) :: (d :: g2tl) :: rest).flatten).length := by
          rw [show ((b :: gtl) :: (d :: g2tl) :: rest).flatten
            = (b :: gtl) ++ ([d] ++ (g2tl ++ rest.flatten)) by simp,
            encodeCps_append, encodeCps_append]
          simp only [List.length_append]
          have : (encodeCps [d]).length = (utf8_encode_cp d).length := by
            simp [encodeCps]
          omega
        rw [hsh2]
        exact utf8_next_grapheme_len_cluster_stop b gtl d
          (encodeCps (g2tl ++ rest.flatten) ++ S) _ hvg hvd hchain hbd.2 hbd.1 hfin2
    rw [hclen]
    have hwidth : utf8_single_char_width
        ((encodeCps ((b :: gtl) :: cls').flatten ++ S).drop 0)
        ((encodeCps (b :: gtl)).length) = utf8_codepoint_width b := by
      rw [List.drop_zero, hsplit, encodeCps_cons]
      rw [List.append_assoc, List.append_assoc]
      exact utf8_single_char_width_encode b _ _ hvb
        (by rw [List.length_append]; omega)
    rw [hwidth]
    have hrec : strWidthAux (encodeCps ((b :: gtl) :: cls').flatten ++ S)
        ((encodeCps ((b :: gtl) :: cls').flatten).length)
        (0 + (encodeCps (b :: gtl)).length) n = widthCps cls' := by
      rw [show (0 : Nat) + (encodeCps (b :: gtl)).length
        = (encodeCps (b :: gtl)).length + 0 by omega]
      rw [strWidthAux_drop _ _ _ (by omega)]
      rw [hsplit, List.append_assoc, List.drop_left' rfl]
      rw [List.length_append]
      rw [show (encodeCps (b :: gtl)).length + (encodeCps cls'.flatten).length
        - (encodeCps (b :: gtl)).length = (encodeCps cls'.flatten).length by omega]
      apply ih S n
      · intro x hx
        exact hv x (by simp only [List.flatten_cons, List.mem_append]; exact Or.inr hx)
      · exact hseg'
      · simp only [List.length_cons] at hfuel
        omega
    rw [hrec]
    show utf8_codepoint_width b + widthCps cls' = widthCps ((b :: gtl) :: cls')
    unfold widthCps
    simp

/-- `display_width` of an encoded cluster segmentation (with arbitrary
trailing bytes beyond the measured range). -/
theorem utf8_str_width_clusters (cls : List (List Nat)) (S : List Nat)
    (hv : ValidCps cls.flatten) (hseg : SegOK cls = true) :
    utf8_str_width (encodeCps cls.flatten ++ S) ((encodeCps cls.flatten).length)
      = widthCps cls := by
  unfold utf8_str_width
  apply strWidthAux_clusters cls S _ hv hseg
  have h1 : cls.length ≤ cls.flatten.length := by
    apply flatten_length_ge
    unfold SegOK at hseg
    simp only [Bool.and_eq_true] at hseg
    exact hseg.1
  have h2 := encodeCps_count_le cls.flatten
  omega

/-! ## Cluster segmentations under take and drop (towards C8) -/

theorem widthCps_cons (g : List Nat) (cls : List (List Nat)) :
    widthCps (g :: cls) = utf8_codepoint_width (g.headD 0) + widthCps cls := by
  unfold widthCps
  simp

theorem widthCps_append (a b : List (List Nat)) :
    widthCps (a ++ b) = widthCps a + widthCps b := by
  unfold widthCps
  simp

theorem flatten_take_drop (cls : List (List Nat)) (j : Nat) :
    cls.flatten = (cls.take j).flatten ++ (cls.drop j).flatten := by
  conv_lhs => rw [← List.take_append_drop j cls]
  rw [List.flatten_append]

theorem segBoundariesOK_tail (g : List Nat) (cls : List (List Nat))
    (h : segBoundariesOK (g :: cls) = true) : segBoundariesOK cls = true := by
  cases cls with
  | nil => rfl
  | cons g2 rest =>
    unfold segBoundariesOK at h
    simp only [Bool.and_eq_true] at h
    exact h.2

theorem SegOK_tail (g : List Nat) (cls : List (List Nat))
    (h : SegOK (g :: cls) = true) : SegOK cls = true := by
  unfold SegOK at h ⊢
  simp only [Bool.and_eq_true] at h ⊢
  refine ⟨?_, segBoundariesOK_tail g cls h.2⟩
  have := h.1
  simp only [List.all_cons, Bool.and_eq_true] at this
  exact this.2

theorem SegOK_drop : ∀ (t : Nat) (cls : List (List Nat)),
    SegOK cls = true → SegOK (cls.drop t) = true := by
  intro t
  induction t with
  | zero => intro cls h; exact h
  | succ n ih =>
    intro cls h
    cases cls with
    | nil => exact h
    | cons g rest =>
      rw [List.drop_succ_cons]
      exact ih rest (SegOK_tail g rest h)

theorem segBoundariesOK_take :
    ∀ (cls : List (List Nat)) (j : Nat), segBoundariesOK cls = true →
    segBoundariesOK (cls.take j) = true := by
  intro cls
  induction cls with
  | nil => intro j _; rw [List.take_nil]; rfl
  | cons g cls' ih =>
    intro j h
    cases j with
    | zero => rfl
    | succ j' =>
      rw [List.take_succ_cons]
      cases cls' with
      | nil => rw [List.take_nil]; rfl
      | cons g2 rest =>
        cases j' with
        | zero => rfl
        | succ j'' =>
          rw [List.take_succ_cons]
          unfold segBoundariesOK at h ⊢
          simp only [Bool.and_eq_true] at h ⊢
          refine ⟨h.1, ?_⟩
          have := ih (j'' + 1) h.2
          rw [List.take_succ_cons] at this
          exact this

theorem SegOK_take (cls : List (List Nat)) (j : Nat)
    (h : SegOK cls = true) : SegOK (cls.take j) = true := by
  unfold SegOK at h ⊢
  simp only [Bool.and_eq_true] at h ⊢
  constructor
  · rw [List.all_eq_true] at h ⊢
    exact fun x hx => h.1 x (List.mem_of_mem_take hx)
  · exact segBoundariesOK_take cls j h.2

theorem segBoundariesOK_snoc :
    ∀ (cls : List (List Nat)) (g : List Nat), cls ≠ [] →
    segBoundariesOK (cls ++ [g]) = true →
    segBoundariesOK cls = true
    ∧ utf8_is_zwj ((cls.getLastD []).getLastD 0) = false
    ∧ utf8_is_grapheme_extend (g.headD 0) = false := by
  intro cls
  induction cls with
  | nil => intro g h; exact absurd rfl h
  | cons c1 cls' ih =>
    intro g _ h
    cases cls' with
    | nil =>
      have h' : (!utf8_is_zwj (c1.getLastD 0) && !utf8_is_grapheme_extend (g.headD 0)
          && segBoundariesOK [g]) = true := h
      simp only [Bool.and_eq_true, Bool.not_eq_true'] at h'
      exact ⟨rfl, h'.1.1, h'.1.2⟩
    | cons c2 rest =>
      have h' : (!utf8_is_zwj (c1.getLastD 0) && !utf8_is_grapheme_extend (c2.headD 0)
          && segBoundariesOK (c2 :: (rest ++ [g]))) = true := h
      simp only [Bool.and_eq_true, Bool.not_eq_true'] at h'
      have hih := ih g (List.cons_ne_nil c2 rest) h'.2
      refine ⟨?_, ?_, hih.2.2⟩
      · show (!utf8_is_zwj (c1.getLastD 0) && !utf8_is_grapheme_extend (c2.headD 0)
          && segBoundariesOK (c2 :: rest)) = true
        simp only [Bool.and_eq_true, Bool.not_eq_true']
        exact ⟨⟨h'.1.1, h'.1.2⟩, hih.1⟩
      · rw [List.getLastD_cons, List.getLastD_cons]
        have h21 := hih.2.1
        rw [List.getLastD_cons] at h21
        exact h21

theorem eq_dropLast_append_getLastD_cls (l : List (List Nat)) (h : l ≠ []) :
    l = l.dropLast ++ [l.getLastD []] := by
  conv_lhs => rw [← List.dropLast_append_getLast h]
  rw [List.getLastD_eq_getLast?, List.getLast?_eq_getLast l h]
  rfl

theorem getLastD_append_right (l1 l2 : List Nat) (h : l2 ≠ []) :
    (l1 ++ l2).getLastD 0 = l2.getLastD 0 := by
  rw [List.getLastD_eq_getLast?, List.getLastD_eq_getLast?,
    List.getLast?_append_of_ne_nil l1 h]

/-- As `utf8_prev_grapheme_len_cluster` with nothing before the cluster:
the backward walk stops at offset 0 whatever the cluster's base is. -/
theorem utf8_prev_grapheme_len_cluster_nil (b : Nat) (tl : List Nat) (S : List Nat)
    (hv : ValidCps (b :: tl)) (hchain : clusterTailOK b tl = true) :
    utf8_prev_grapheme_len (encodeCps (b :: tl) ++ S) ((encodeCps (b :: tl)).length)
      = (encodeCps (b :: tl)).length := by
  have hgne : (b :: tl) ≠ [] := List.cons_ne_nil b tl
  have hsplitg : b :: tl = (b :: tl).dropLast ++ [(b :: tl).getLastD 0] :=
    eq_dropLast_append_getLastD (b :: tl) hgne
  have hv' : ValidCps ((b :: tl).dropLast ++ [(b :: tl).getLastD 0]) := by
    rw [← hsplitg]
    exact hv
  have hmain := utf8_prev_grapheme_len_encoded ((b :: tl).dropLast)
    ((b :: tl).getLastD 0) S hv'
  rw [← hsplitg] at hmain
  rw [hmain]
  have hcnt := prevClusterLenCpsAux_cluster tl b ([] : List Nat) hchain (Or.inl rfl)
  rw [List.append_nil] at hcnt
  rw [hcnt]
  have hdl : (b :: tl).dropLast.length = tl.length := by
    rw [List.length_dropLast, List.length_cons]
    omega
  rw [hdl, show tl.length + 1 - (tl.length + 1) = 0 by omega, List.drop_zero]

/-- `prev_grapheme_len` at the end of a rendered cluster prefix removes
exactly the last cluster. -/
theorem prev_grapheme_last_cluster (D : List (List Nat)) (g : List Nat) (R : List Nat)
    (hv : ValidCps (D ++ [g]).flatten) (hseg : SegOK (D ++ [g]) = true) :
    utf8_prev_grapheme_len (encodeCps (D ++ [g]).flatten ++ R)
      ((encodeCps (D ++ [g]).flatten).length)
      = (encodeCps g).length := by
  have hflat : (D ++ [g]).flatten = D.flatten ++ g := by simp
  have hgshape : clusterShape g = true := by
    unfold SegOK at hseg
    simp only [Bool.and_eq_true, List.all_eq_true] at hseg
    exact hseg.1 g (by simp)
  obtain ⟨gb, gtl, rfl⟩ : ∃ gb gtl, g = gb :: gtl := by
    cases g with
    | nil => exact absurd hgshape (by simp [clusterShape])
    | cons x xs => exact ⟨x, xs, rfl⟩
  have hchain : clusterTailOK gb gtl = true := hgshape
  rw [hflat]
  by_cases hDnil : D = []
  · subst hDnil
    rw [show (([] : List (List Nat)).flatten ++ (gb :: gtl)) = gb :: gtl by simp]
    refine utf8_prev_grapheme_len_cluster_nil gb gtl R ?_ hchain
    have := hv
    rw [show (([] : List (List Nat)) ++ [gb :: gtl]).flatten = gb :: gtl by simp] at this
    exact this
  · have hDne : D ≠ [] := hDnil
    have hv' : ValidCps (D.flatten ++ (gb :: gtl)) := by
      rw [← hflat]
      exact hv
    have hbnd : segBoundariesOK (D ++ [gb :: gtl]) = true := by
      unfold SegOK at hseg
      simp only [Bool.and_eq_true] at hseg
      exact hseg.2
    have hsnoc := segBoundariesOK_snoc D (gb :: gtl) hDne hbnd
    have hbase : utf8_is_grapheme_extend gb = false := hsnoc.2.2
    have hlastne : D.getLastD [] ≠ [] := by
      intro hnil
      have : clusterShape (D.getLastD []) = true := by
        unfold SegOK at hseg
        simp only [Bool.and_eq_true, List.all_eq_true] at hseg
        apply hseg.1
        have hmem : D.getLastD [] ∈ D := by
          rw [List.getLastD_eq_getLast?, List.getLast?_eq_getLast D hDne]
          exact List.getLast_mem hDne
        simp only [List.mem_append]
        exact Or.inl hmem
      rw [hnil] at this
      exact absurd this (by simp [clusterShape])
    have hnz : utf8_is_zwj (D.flatten.getLastD 0) = false := by
      have hdf : D.flatten = D.dropLast.flatten ++ D.getLastD [] := by
        conv_lhs => rw [eq_dropLast_append_getLastD_cls D hDne]
        simp
      rw [hdf, getLastD_append_right _ _ hlastne]
      exact hsnoc.2.1
    exact utf8_prev_grapheme_len_cluster D.flatten gb gtl R hv' hchain hbase hnz

/-- The right-trim loop of refreshSingleLine on a rendered cluster prefix:
it removes whole clusters from the right until the prompt plus the line
width fit, and never goes below any cluster prefix that already fits. -/
theorem trimRightAux_clusters (pw cols : Nat) (hpw : pw < cols) :
    ∀ (ce : List (List Nat)) (R : List Nat) (pos0 poscol0 : Nat) (fuel : Nat)
    (k : Nat),
    ValidCps ce.flatten → SegOK ce = true →
    ce.length < fuel → k ≤ ce.length → pw + widthCps (ce.take k) < cols →
    ∃ m, m ≤ ce.length ∧ k ≤ m ∧
      trimRightAux pw cols
        { buf := encodeCps ce.flatten ++ R,
          len := (encodeCps ce.flatten).length,
          pos := pos0, poscol := poscol0,
          lencol := widthCps ce } fuel
      = { buf := encodeCps ce.flatten ++ R,
          len := (encodeCps (ce.take m).flatten).length,
          pos := pos0, poscol := poscol0,
          lencol := widthCps (ce.take m) }
      ∧ pw + widthCps (ce.take m) ≤ cols := by
  intro ce
  induction ce using List.reverseRecOn with
  | nil =>
    intro R pos0 poscol0 fuel k _ _ hfuel hk _
    obtain ⟨n, rfl⟩ : ∃ n, fuel = n + 1 := ⟨fuel - 1, by omega⟩
    simp only [List.length_nil] at hk
    refine ⟨0, le_refl 0, by omega, ?_, ?_⟩
    · simp only [trimRightAux]
      rw [if_neg (by show ¬ pw + widthCps [] > cols; unfold widthCps; simp; omega)]
      rw [List.take_nil]
    · rw [List.take_nil]
      unfold widthCps
      simp
      omega
  | append_singleton D g ih =>
    intro R pos0 poscol0 fuel k hv hseg hfuel hk hkw
    obtain ⟨n, rfl⟩ : ∃ n, fuel = n + 1 := ⟨fuel - 1, by omega⟩
    by_cases hg : pw + widthCps (D ++ [g]) > cols
    · -- the guard holds: the last cluster g is removed
      have hgshape : clusterShape g = true := by
        unfold SegOK at hseg
        simp only [Bool.and_eq_true, List.all_eq_true] at hseg
        exact hseg.1 g (by simp)
      obtain ⟨gb, gtl, hgbt⟩ : ∃ gb gtl, g = gb :: gtl := by
        cases g with
        | nil => exact absurd hgshape (by simp [clusterShape])
        | cons x xs => exact ⟨x, xs, rfl⟩
      have hvg : ValidCps (gb :: gtl) := by
        intro x hx
        apply hv x
        rw [show (D ++ [g]).flatten = D.flatten ++ g by simp, hgbt]
        exact List.mem_append_right _ hx
      have hvgb : gb < 0x110000 := hvg gb (by simp)
      have hkD : k ≤ D.length := by
        rcases Nat.lt_or_ge k (D.length + 1) with h | h
        · omega
        · exfalso
          have hkeq : k = D.length + 1 := by
            simp only [List.length_append, List.length_singleton] at hk
            omega
          rw [hkeq, show D.length + 1 = (D ++ [g]).length by simp,
            List.take_length] at hkw
          omega
      have htkk : (D ++ [g]).take k = D.take k := by
        rw [List.take_append_eq_append_take,
          show k - D.length = 0 by omega]
        simp
      have hclen : utf8_prev_grapheme_len
          (encodeCps (D ++ [g]).flatten ++ R) ((encodeCps (D ++ [g]).flatten).length)
          = (encodeCps g).length :=
        prev_grapheme_last_cluster D g R hv hseg
      have hsplitb : encodeCps (D ++ [g]).flatten
          = encodeCps D.flatten ++ encodeCps g := by
        rw [show (D ++ [g]).flatten = D.flatten ++ g by simp, encodeCps_append]
      have hlen2 : (encodeCps (D ++ [g]).flatten).length
          = (encodeCps D.flatten).length + (encodeCps g).length := by
        rw [hsplitb, List.length_append]
      have hwidth2 : widthCps (D ++ [g])
          = widthCps D + utf8_codepoint_width (g.headD 0) := by
        rw [widthCps_append, widthCps_cons]
        unfold widthCps
        simp
      have hcw : utf8_single_char_width
          ((encodeCps (D ++ [g]).flatten ++ R).drop
            ((encodeCps (D ++ [g]).flatten).length - (encodeCps g).length))
          ((encodeCps g).length)
          = utf8_codepoint_width (g.headD 0) := by
        rw [hlen2, show (encodeCps D.flatten).length + (encodeCps g).length
          - (encodeCps g).length = (encodeCps D.flatten).length by omega]
        rw [hsplitb, List.append_assoc, List.drop_left' rfl]
        rw [hgbt, encodeCps_cons, List.append_assoc]
        rw [show ((gb :: gtl) : List Nat).headD 0 = gb from rfl]
        exact utf8_single_char_width_encode gb _ _ hvgb
          (by rw [List.length_append]; omega)
      have hvD : ValidCps D.flatten := by
        intro x hx
        apply hv x
        rw [show (D ++ [g]).flatten = D.flatten ++ g by simp]
        exact List.mem_append_left _ hx
      have hsegD : SegOK D = true := by
        have := SegOK_take (D ++ [g]) D.length hseg
        rw [List.take_append_eq_append_take, Nat.sub_self, List.take_length] at this
        simpa using this
      have hkwD : pw + widthCps (D.take k) < cols := by
        rw [← htkk]
        exact hkw
      have hfuelD : D.length < n := by
        simp only [List.length_append, List.length_singleton] at hfuel
        omega
      obtain ⟨m, hm1, hm2, hm3, hm4⟩ :=
        ih (encodeCps g ++ R) pos0 poscol0 n k hvD hsegD hfuelD hkD hkwD
      have htkm : (D ++ [g]).take m = D.take m := by
        rw [List.take_append_eq_append_take, show m - D.length = 0 by omega]
        simp
      refine ⟨m, ?_, hm2, ?_, ?_⟩
      · simp only [List.length_append, List.length_singleton]
        omega
      · simp only [trimRightAux]
        rw [if_pos hg]
        rw [hclen, hcw]
        rw [htkm, hlen2]
        rw [show (encodeCps D.flatten).length + (encodeCps g).length
          - (encodeCps g).length = (encodeCps D.flatten).length by omega]
        rw [hwidth2]
        rw [show widthCps D + utf8_codepoint_width (g.headD 0)
          - utf8_codepoint_width (g.headD 0) = widthCps D by omega]
        rw [hsplitb, List.append_assoc]
        exact hm3
      · rw [htkm]
        exact hm4
    · -- the guard fails: nothing is trimmed
      refine ⟨(D ++ [g]).length, le_refl _, by omega, ?_, by rw [List.take_length]; omega⟩
      simp only [trimRightAux]
      rw [if_neg hg, List.take_length]

/-- `next_grapheme_len` at the start of a rendered cluster segmentation
consumes exactly the first cluster. -/
theorem next_grapheme_first_cluster (g : List Nat) (cls' : List (List Nat)) (S : List Nat)
    (hv : ValidCps (g :: cls').flatten) (hseg : SegOK (g :: cls') = true) :
    utf8_next_grapheme_len (encodeCps (g :: cls').flatten ++ S) 0
      ((encodeCps (g :: cls').flatten).length)
      = (encodeCps g).length := by
  have hsegparts : (g :: cls').all clusterShape = true
      ∧ segBoundariesOK (g :: cls') = true := by
    unfold SegOK at hseg
    simp only [Bool.and_eq_true] at hseg
    exact hseg
  have hgshape : clusterShape g = true := by
    have := hsegparts.1
    simp only [List.all_cons, Bool.and_eq_true] at this
    exact this.1
  obtain ⟨b, gtl, rfl⟩ : ∃ b gtl, g = b :: gtl := by
    cases g with
    | nil => exact absurd hgshape (by simp [clusterShape])
    | cons x xs => exact ⟨x, xs, rfl⟩
  have hchain : clusterTailOK b gtl = true := hgshape
  have hvg : ValidCps (b :: gtl) := by
    intro x hx
    exact hv x (by simp only [List.flatten_cons, List.mem_append]; exact Or.inl hx)
  have hsplit : encodeCps ((b :: gtl) :: cls').flatten
      = encodeCps (b :: gtl) ++ encodeCps cls'.flatten := by
    rw [show ((b :: gtl) :: cls').flatten = (b :: gtl) ++ cls'.flatten from rfl,
      encodeCps_append]
  cases cls' with
  | nil =>
    have h0 : encodeCps (([] : List (List Nat)).flatten) = [] := rfl
    rw [hsplit, h0, List.append_nil]
    exact utf8_next_grapheme_len_cluster_end b gtl S hvg hchain
  | cons g2 rest =>
    obtain ⟨d, g2tl, rfl⟩ : ∃ d g2tl, g2 = d :: g2tl := by
      have : clusterShape g2 = true := by
        have := hsegparts.1
        simp only [List.all_cons, Bool.and_eq_true] at this
        exact this.2.1
      cases g2 with
      | nil => exact absurd this (by simp [clusterShape])
      | cons x xs => exact ⟨x, xs, rfl⟩
    have hvd : d < 0x110000 := by
      apply hv d
      simp
    have hbd : utf8_is_zwj ((b :: gtl).getLastD 0) = false
        ∧ utf8_is_grapheme_extend d = false := by
      have := hsegparts.2
      unfold segBoundariesOK at this
      simp only [Bool.and_eq_true] at this
      constructor
      · have h1 := this.1.1
        cases h : utf8_is_zwj ((b :: gtl).getLastD 0)
        · rfl
        · rw [h] at h1; exact absurd h1 (by simp)
      · have h2 := this.1.2
        cases h : utf8_is_grapheme_extend ((d :: g2tl).headD 0)
        · exact h
        · rw [h] at h2; exact absurd h2 (by simp)
    have hsh2 : encodeCps ((b :: gtl) :: (d :: g2tl) :: rest).flatten ++ S
        = encodeCps (b :: gtl)
          ++ (utf8_encode_cp d ++ (encodeCps (g2tl ++ rest.flatten) ++ S)) := by
      rw [show ((b :: gtl) :: (d :: g2tl) :: rest).flatten
        = (b :: gtl) ++ (d :: (g2tl ++ rest.flatten)) by simp, encodeCps_append,
        encodeCps_cons]
      simp only [List.append_assoc]
      rw [encodeCps_cons, List.append_assoc]
    have hfin2 : (encodeCps (b :: gtl)).length + (utf8_encode_cp d).length
        ≤ (encodeCps ((b :: gtl) :: (d :: g2tl) :: rest).flatten).length := by
      rw [show ((b :: gtl) :: (d :: g2tl) :: rest).flatten
        = (b :: gtl) ++ ([d] ++ (g2tl ++ rest.flatten)) by simp,
        encodeCps_append, encodeCps_append]
      simp only [List.length_append]
      have : (encodeCps [d]).length = (utf8_encode_cp d).length := by
        simp [encodeCps]
      omega
    rw [hsh2]
    exact utf8_next_grapheme_len_cluster_stop b gtl d
      (encodeCps (g2tl ++ rest.flatten) ++ S) _ hvg hvd hchain hbd.2 hbd.1 hfin2

/-- `single_cluster_width` at the start of a rendered cluster segmentation
is the width of the first cluster's base codepoint. -/
theorem single_char_width_first_cluster (g : List Nat) (cls' : List (List Nat))
    (S : List Nat)
    (hv : ValidCps (g :: cls').flatten) (hseg : SegOK (g :: cls') = true) :
    utf8_single_char_width (encodeCps (g :: cls').flatten ++ S) ((encodeCps g).length)
      = utf8_codepoint_width (g.headD 0) := by
  have hgshape : clusterShape g = true := by
    unfold SegOK at hseg
    simp only [Bool.and_eq_true, List.all_eq_true] at hseg
    exact hseg.1 g (by simp)
  obtain ⟨b, gtl, rfl⟩ : ∃ b gtl, g = b :: gtl := by
    cases g with
    | nil => exact absurd hgshape (by simp [clusterShape])
    | cons x xs => exact ⟨x, xs, rfl⟩
  have hvb : b < 0x110000 := by
    apply hv b
    simp
  rw [show encodeCps ((b :: gtl) :: cls').flatten ++ S
    = utf8_encode_cp b ++ (encodeCps gtl ++ (encodeCps cls'.flatten ++ S)) by
      rw [show ((b :: gtl) :: cls').flatten = (b :: gtl) ++ cls'.flatten from rfl,
        encodeCps_append, encodeCps_cons]
      simp [List.append_assoc]]
  rw [show ((b :: gtl) : List Nat).headD 0 = b from rfl]
  exact utf8_single_char_width_encode b _ _ hvb
    (by rw [encodeCps_cons, List.length_append]; omega)

theorem trimRightAux_clusters' (pw cols : Nat) (hpw : pw < cols)
    (ce : List (List Nat)) (pos0 poscol0 : Nat) (fuel k : Nat)
    (hv : ValidCps ce.flatten) (hseg : SegOK ce = true)
    (hfuel : ce.length < fuel) (hk : k ≤ ce.length)
    (hkw : pw + widthCps (ce.take k) < cols) :
    ∃ m, m ≤ ce.length ∧ k ≤ m ∧
      trimRightAux pw cols
        { buf := encodeCps ce.flatten,
          len := (encodeCps ce.flatten).length,
          pos := pos0, poscol := poscol0,
          lencol := widthCps ce } fuel
      = { buf := encodeCps ce.flatten,
          len := (encodeCps (ce.take m).flatten).length,
          pos := pos0, poscol := poscol0,
          lencol := widthCps (ce.take m) }
      ∧ pw + widthCps (ce.take m) ≤ cols := by
  obtain ⟨m, h1, h2, h3, h4⟩ := trimRightAux_clusters pw cols hpw ce [] pos0 poscol0
    fuel k hv hseg hfuel hk hkw
  rw [List.append_nil] at h3
  exact ⟨m, h1, h2, h3, h4⟩

/-- The left-scroll loop of refreshSingleLine on a rendered cluster
segmentation: it drops whole clusters from the left, never past the
cursor, and stops with the prompt plus the cursor column inside the
terminal width. -/
theorem scrollLeftAux_clusters (pw cols : Nat) (hpw : pw < cols) :
    ∀ (cd : List (List Nat)) (j : Nat) (fuel : Nat),
    ValidCps cd.flatten → SegOK cd = true → j ≤ cd.length →
    cd.length < fuel →
    ∃ t, t ≤ j ∧
      scrollLeftAux pw cols
        { buf := encodeCps cd.flatten,
          len := (encodeCps cd.flatten).length,
          pos := (encodeCps (cd.take j).flatten).length,
          poscol := widthCps (cd.take j),
          lencol := widthCps cd } fuel
      = { buf := encodeCps (cd.drop t).flatten,
          len := (encodeCps (cd.drop t).flatten).length,
          pos := (encodeCps ((cd.drop t).take (j - t)).flatten).length,
          poscol := widthCps ((cd.drop t).take (j - t)),
          lencol := widthCps (cd.drop t) }
      ∧ pw + widthCps ((cd.drop t).take (j - t)) < cols := by
  intro cd
  induction cd with
  | nil =>
    intro j fuel _ _ hj hfuel
    obtain ⟨n, rfl⟩ : ∃ n, fuel = n + 1 := ⟨fuel - 1, by omega⟩
    simp only [List.length_nil] at hj
    have hj0 : j = 0 := by omega
    subst hj0
    refine ⟨0, le_refl 0, ?_, ?_⟩
    · simp only [scrollLeftAux]
      split_ifs with hc
      · exfalso
        have h0 : widthCps (([] : List (List Nat)).take 0) = 0 := rfl
        omega
      · rfl
    · have h0 : widthCps ((([] : List (List Nat)).drop 0).take (0 - 0)) = 0 := rfl
      omega
  | cons g cd' ih =>
    intro j fuel hv hseg hj hfuel
    obtain ⟨n, rfl⟩ : ∃ n, fuel = n + 1 := ⟨fuel - 1, by omega⟩
    simp only [scrollLeftAux]
    by_cases hc : pw + widthCps ((g :: cd').take j) ≥ cols
    · rw [if_pos hc]
      have hj1 : 1 ≤ j := by
        by_contra h0
        have hj0 : j = 0 := by omega
        rw [hj0] at hc
        have : widthCps ((g :: cd').take 0) = 0 := rfl
        omega
      obtain ⟨j', rfl⟩ : ∃ j', j = j' + 1 := ⟨j - 1, by omega⟩
      have hclen0 := next_grapheme_first_cluster g cd' [] hv hseg
      rw [List.append_nil] at hclen0
      have hcw0 := single_char_width_first_cluster g cd' [] hv hseg
      rw [List.append_nil] at hcw0
      rw [hclen0, hcw0]
      have hsplit : encodeCps (g :: cd').flatten
          = encodeCps g ++ encodeCps cd'.flatten := by
        rw [show (g :: cd').flatten = g ++ cd'.flatten from rfl, encodeCps_append]
      have hflen : (encodeCps (g :: cd').flatten).length
          = (encodeCps g).length + (encodeCps cd'.flatten).length := by
        rw [hsplit, List.length_append]
      have htk : (g :: cd').take (j' + 1) = g :: cd'.take j' := List.take_succ_cons
      have hptk : (encodeCps ((g :: cd').take (j' + 1)).flatten).length
          = (encodeCps g).length + (encodeCps (cd'.take j').flatten).length := by
        rw [htk, show (g :: cd'.take j').flatten = g ++ (cd'.take j').flatten from rfl,
          encodeCps_append, List.length_append]
      have hwc : widthCps ((g :: cd').take (j' + 1))
          = utf8_codepoint_width (g.headD 0) + widthCps (cd'.take j') := by
        rw [htk, widthCps_cons]
      have hwl : widthCps (g :: cd')
          = utf8_codepoint_width (g.headD 0) + widthCps cd' := widthCps_cons g cd'
      have hbdrop : (encodeCps (g :: cd').flatten).drop ((encodeCps g).length)
          = encodeCps cd'.flatten := by
        rw [hsplit]
        exact List.drop_left' rfl
      rw [hbdrop, hflen, hptk, hwc, hwl]
      rw [show (encodeCps g).length + (encodeCps cd'.flatten).length
        - (encodeCps g).length = (encodeCps cd'.flatten).length by omega]
      rw [show (encodeCps g).length + (encodeCps (cd'.take j').flatten).length
        - (encodeCps g).length = (encodeCps (cd'.take j').flatten).length by omega]
      rw [show utf8_codepoint_width (g.headD 0) + widthCps (cd'.take j')
        - utf8_codepoint_width (g.headD 0) = widthCps (cd'.take j') by omega]
      rw [show utf8_codepoint_width (g.headD 0) + widthCps cd'
        - utf8_codepoint_width (g.headD 0) = widthCps cd' by omega]
      have hvd : ValidCps cd'.flatten := by
        intro x hx
        exact hv x (by simp only [List.flatten_cons, List.mem_append]; exact Or.inr hx)
      have hsegd : SegOK cd' = true := SegOK_tail g cd' hseg
      have hjd : j' ≤ cd'.length := by
        simp only [List.length_cons] at hj
        omega
      have hfueld : cd'.length < n := by
        simp only [List.length_cons] at hfuel
        omega
      obtain ⟨t', ht'1, ht'2, ht'3⟩ := ih j' n hvd hsegd hjd hfueld
      refine ⟨t' + 1, by omega, ?_, ?_⟩
      · rw [List.drop_succ_cons,
          show j' + 1 - (t' + 1) = j' - t' by omega]
        exact ht'2
      · rw [List.drop_succ_cons,
          show j' + 1 - (t' + 1) = j' - t' by omega]
        exact ht'3
    · rw [if_neg hc]
      refine ⟨0, by omega, rfl, ?_⟩
      have h0 : ((g :: cd').drop 0).take (j - 0) = (g :: cd').take j := rfl
      rw [h0]
      omega

theorem refreshSingleLine_vpos (cfg : EditCfg) (l : LinenoiseState) (wf : Bool) :
    (refreshSingleLine cfg l wf).vpos
      = (singleLineViewport (utf8_str_width l.prompt l.plen) l.cols l.buf l.len l.pos).pos := by
  unfold refreshSingleLine
  dsimp only

theorem refreshSingleLine_cursorCol (cfg : EditCfg) (l : LinenoiseState) (wf : Bool) :
    (refreshSingleLine cfg l wf).cursorCol
      = (singleLineViewport (utf8_str_width l.prompt l.plen) l.cols l.buf l.len l.pos).poscol
        + utf8_str_width l.prompt l.plen := by
  unfold refreshSingleLine
  dsimp only

/-- **C8 (amended).**  For a prompt whose display width is smaller than
the terminal width and a buffer that is the encoding of a well-formed
cluster segmentation with the cursor on a cluster boundary, after the
scroll and trim loops the frame satisfies
`pwidth + display_width(visible slice) ≤ cols`, and the cursor escape
column is `pwidth + display_width(visible slice up to the cursor)`. -/
theorem claim_C8 (cfg : EditCfg) (l : LinenoiseState) (cls : List (List Nat)) (j : Nat)
    (hbuf : l.buf = encodeCps cls.flatten)
    (hpos : l.pos = (encodeCps (cls.take j).flatten).length)
    (hv : ValidCps cls.flatten) (hseg : SegOK cls = true)
    (hj : j ≤ cls.length)
    (hpw : utf8_str_width l.prompt l.plen < l.cols) :
    utf8_str_width l.prompt l.plen
        + utf8_str_width (refreshSingleLine cfg l true).vbuf
          (refreshSingleLine cfg l true).vbuf.length ≤ l.cols ∧
    (refreshSingleLine cfg l true).cursorCol
      = utf8_str_width l.prompt l.plen
        + utf8_str_width (refreshSingleLine cfg l true).vbuf
          (refreshSingleLine cfg l true).vpos := by
  have hlen : l.len = (encodeCps cls.flatten).length := by
    show l.buf.length = _
    rw [hbuf]
  have hall : cls.all clusterShape = true := by
    unfold SegOK at hseg
    simp only [Bool.and_eq_true] at hseg
    exact hseg.1
  have hcount : cls.length ≤ (encodeCps cls.flatten).length := by
    have h1 := flatten_length_ge cls hall
    have h2 := encodeCps_count_le cls.flatten
    omega
  have hvtake : ∀ k, ValidCps (cls.take k).flatten := by
    intro k x hx
    apply hv x
    rw [flatten_take_drop cls k]
    exact List.mem_append_left _ hx
  have hposcol0 : utf8_str_width l.buf l.pos = widthCps (cls.take j) := by
    rw [hbuf, hpos, flatten_take_drop cls j, encodeCps_append]
    have htkx : (encodeCps ((cls.take j).flatten ++ (cls.drop j).flatten)).length
        = (encodeCps (cls.take j).flatten ++ encodeCps (cls.drop j).flatten).length := by
      rw [encodeCps_append]
    exact utf8_str_width_clusters (cls.take j) (encodeCps (cls.drop j).flatten)
      (hvtake j) (SegOK_take cls j hseg)
  have hlencol0 : utf8_str_width l.buf l.len = widthCps cls := by
    rw [hbuf, hlen]
    have h := utf8_str_width_clusters cls [] hv hseg
    rw [List.append_nil] at h
    exact h
  have hview : ∃ t m, t ≤ j ∧ j - t ≤ m ∧ m ≤ (cls.drop t).length ∧
      singleLineViewport (utf8_str_width l.prompt l.plen) l.cols l.buf l.len l.pos
        = { buf := encodeCps (cls.drop t).flatten,
            len := (encodeCps ((cls.drop t).take m).flatten).length,
            pos := (encodeCps ((cls.drop t).take (j - t)).flatten).length,
            poscol := widthCps ((cls.drop t).take (j - t)),
            lencol := widthCps ((cls.drop t).take m) }
      ∧ utf8_str_width l.prompt l.plen + widthCps ((cls.drop t).take m) ≤ l.cols := by
    unfold singleLineViewport
    dsimp only
    rw [hposcol0, hlencol0, hbuf, hpos, hlen]
    obtain ⟨t, ht1, ht2, ht3⟩ := scrollLeftAux_clusters
      (utf8_str_width l.prompt l.plen) l.cols hpw cls j
      ((encodeCps cls.flatten).length + 1) hv hseg hj (by omega)
    rw [ht2]
    dsimp only
    have hvd : ValidCps (cls.drop t).flatten := by
      intro x hx
      apply hv x
      rw [flatten_take_drop cls t]
      exact List.mem_append_right _ hx
    have hsegd : SegOK (cls.drop t) = true := SegOK_drop t cls hseg
    have hcountd : (cls.drop t).length ≤ (encodeCps (cls.drop t).flatten).length := by
      have h1 := flatten_length_ge (cls.drop t) (by
        unfold SegOK at hsegd
        simp only [Bool.and_eq_true] at hsegd
        exact hsegd.1)
      have h2 := encodeCps_count_le (cls.drop t).flatten
      omega
    obtain ⟨m, hm1, hm2, hm3, hm4⟩ := trimRightAux_clusters'
      (utf8_str_width l.prompt l.plen) l.cols hpw (cls.drop t)
      ((encodeCps ((cls.drop t).take (j - t)).flatten).length)
      (widthCps ((cls.drop t).take (j - t)))
      ((encodeCps (cls.drop t).flatten).length + 1) (j - t)
      hvd hsegd (by omega)
      (by rw [List.length_drop]; omega) ht3
    rw [hm3]
    exact ⟨t, m, ht1, hm2, hm1, rfl, hm4⟩
  obtain ⟨t, m, htj, hjtm, hmlen, hvq, hbound⟩ := hview
  have hvbuf : (refreshSingleLine cfg l true).vbuf
      = encodeCps ((cls.drop t).take m).flatten := by
    rw [refreshSingleLine_vbuf cfg l true, hvq]
    show (encodeCps (cls.drop t).flatten).take
      ((encodeCps ((cls.drop t).take m).flatten).length) = _
    rw [flatten_take_drop (cls.drop t) m, encodeCps_append]
    exact List.take_left' rfl
  have hvdm : ValidCps ((cls.drop t).take m).flatten := by
    intro x hx
    apply hv x
    rw [flatten_take_drop cls t]
    apply List.mem_append_right
    rw [flatten_take_drop (cls.drop t) m]
    exact List.mem_append_left _ hx
  have hsegdm : SegOK ((cls.drop t).take m) = true :=
    SegOK_take (cls.drop t) m (SegOK_drop t cls hseg)
  have hwm : utf8_str_width (refreshSingleLine cfg l true).vbuf
      (refreshSingleLine cfg l true).vbuf.length = widthCps ((cls.drop t).take m) := by
    rw [hvbuf]
    have h := utf8_str_width_clusters ((cls.drop t).take m) [] hvdm hsegdm
    rw [List.append_nil] at h
    exact h
  constructor
  · rw [hwm]
    exact hbound
  · rw [refreshSingleLine_cursorCol cfg l true, refreshSingleLine_vpos cfg l true, hvq]
    show widthCps ((cls.drop t).take (j - t)) + utf8_str_width l.prompt l.plen
      = utf8_str_width l.prompt l.plen
        + utf8_str_width (refreshSingleLine cfg l true).vbuf
          ((encodeCps ((cls.drop t).take (j - t)).flatten).length)
    have hsplitm : (cls.drop t).take m
        = (cls.drop t).take (j - t) ++ (((cls.drop t).take m).drop (j - t)) := by
      conv_lhs => rw [← List.take_append_drop (j - t) ((cls.drop t).take m)]
      rw [List.take_take, Nat.min_eq_left hjtm]
    have hwp : utf8_str_width (refreshSingleLine cfg l true).vbuf
        ((encodeCps ((cls.drop t).take (j - t)).flatten).length)
        = widthCps ((cls.drop t).take (j - t)) := by
      rw [hvbuf, hsplitm]
      rw [show ((cls.drop t).take (j - t) ++ ((cls.drop t).take m).drop (j - t)).flatten
        = ((cls.drop t).take (j - t)).flatten
          ++ (((cls.drop t).take m).drop (j - t)).flatten from List.flatten_append _ _]
      rw [encodeCps_append]
      apply utf8_str_width_clusters
      · intro x hx
        apply hvdm x
        rw [hsplitm, List.flatten_append]
        exact List.mem_append_left _ hx
      · have := SegOK_take ((cls.drop t).take m) (j - t) hsegdm
        rw [List.take_take, Nat.min_eq_left hjtm] at this
        exact this
    rw [hwp]
    omega

/-- **C8, witness.** -/
theorem claim_C8_witness :
    utf8_str_width (⟨false, 0, [97], 63, [112], 1, 80, 0⟩ : LinenoiseState).prompt
        (⟨false, 0, [97], 63, [112], 1, 80, 0⟩ : LinenoiseState).plen
        + utf8_str_width (refreshSingleLine ⟨false, false, none, none⟩
            ⟨false, 0, [97], 63, [112], 1, 80, 0⟩ true).vbuf
          (refreshSingleLine ⟨false, false, none, none⟩
            ⟨false, 0, [97], 63, [112], 1, 80, 0⟩ true).vbuf.length
      ≤ (⟨false, 0, [97], 63, [112], 1, 80, 0⟩ : LinenoiseState).cols ∧
    (refreshSingleLine ⟨false, false, none, none⟩
        ⟨false, 0, [97], 63, [112], 1, 80, 0⟩ true).cursorCol
      = utf8_str_width (⟨false, 0, [97], 63, [112], 1, 80, 0⟩ : LinenoiseState).prompt
          (⟨false, 0, [97], 63, [112], 1, 80, 0⟩ : LinenoiseState).plen
        + utf8_str_width (refreshSingleLine ⟨false, false, none, none⟩
            ⟨false, 0, [97], 63, [112], 1, 80, 0⟩ true).vbuf
          (refreshSingleLine ⟨false, false, none, none⟩
            ⟨false, 0, [97], 63, [112], 1, 80, 0⟩ true).vpos :=
  claim_C8 ⟨false, false, none, none⟩ ⟨false, 0, [97], 63, [112], 1, 80, 0⟩
    [[97]] 1
    (by decide) (by decide) (by unfold ValidCps; decide) (by decide) (by decide)
    (by decide)

end Linenoise

